import Mathlib

/-!
Shallow embedding of the line-buffer core of the repository
(src/src/core_editor/line_buffer.rs) and verification of the claims
about it.

The Rust source stores the buffer as a UTF-8 `String` and addresses it
with byte offsets.  Here the content is a `List Char` (a list of Unicode
scalar values; validity of the UTF-8 encoding is thereby built in) and
every offset is the byte offset of the corresponding position in the
UTF-8 encoding, computed with `Char.utf8Size`.

The source delegates text segmentation to the unicode-segmentation
crate.  That crate is no code of this repository; it is modelled here:
an extended grapheme cluster is a single scalar value, except that a
carriage return followed directly by a line feed forms one cluster
(exactly the behaviour of UAX 29 on every input appearing in the
claims); word-bound segmentation splits the text into maximal runs of
characters agreeing on `Char.isAlphanum`, which on the alphanumeric /
space / punctuation inputs of the claims coincides with the crate's
word boundaries.  Rust's `char::is_alphanumeric` is modelled by
`Char.isAlphanum`.
-/

/-- Total UTF-8 byte length of a list of characters, as Rust's `str::len`. -/
def utf8Len (s : List Char) : Nat :=
  s.foldr (fun c n => c.utf8Size + n) 0

/-- Characters of the first `n` bytes: the model of slicing `s[..n]`.
At an offset inside a character it stops at the last boundary before the
offset (the Rust code never slices there: it would panic). -/
def takeBytes : List Char → Nat → List Char
  | [], _ => []
  | c :: cs, n => if c.utf8Size ≤ n then c :: takeBytes cs (n - c.utf8Size) else []

/-- Characters from byte `n` on: the model of slicing `s[n..]`. -/
def dropBytes : List Char → Nat → List Char
  | [], _ => []
  | c :: cs, n => if c.utf8Size ≤ n then dropBytes cs (n - c.utf8Size) else c :: cs

/-- Characters of the byte range `[a, b)`: the model of slicing `s[a..b]`. -/
def sliceBytes (s : List Char) (a b : Nat) : List Char :=
  takeBytes (dropBytes s a) (b - a)

/-- Model of Rust's `str::is_char_boundary`: the offset splits the encoding
between two characters (or is 0 or the total length). -/
def isCharBoundary : List Char → Nat → Bool
  | [], n => n == 0
  | c :: cs, n =>
    if n = 0 then true
    else if c.utf8Size ≤ n then isCharBoundary cs (n - c.utf8Size) else false

/-- Byte offset of the first occurrence of `c`, as Rust's `str::find`. -/
def strFind (c : Char) : List Char → Option Nat
  | [] => none
  | d :: ds => if d = c then some 0 else (strFind c ds).map (fun i => i + d.utf8Size)

/-- Byte offset of the last occurrence of `c`, as Rust's `str::rfind`. -/
def strRFind (c : Char) : List Char → Option Nat
  | [] => none
  | d :: ds =>
    match strRFind c ds with
    | some i => some (i + d.utf8Size)
    | none => if d = c then some 0 else none

/-- Model of the unicode-segmentation crate's `grapheme_indices(true)`
starting from byte offset `base`: each scalar value is its own extended
grapheme cluster except a CR directly followed by a LF, which form one
cluster.  This restriction of UAX 29 agrees with the crate exactly on text
without cluster-merging characters (`Extend` marks, ZWJ, regional
indicators, Hangul jamo, Prepend, SpacingMark); `uniGraphemes` below adds
the `Extend` merging of rule GB9 for the combining-mark texts. -/
def graphemeIndicesFrom (base : Nat) : List Char → List (Nat × List Char)
  | [] => []
  | [c] => [(base, [c])]
  | c :: d :: cs =>
    if c = '\r' ∧ d = '\n' then (base, ['\r', '\n']) :: graphemeIndicesFrom (base + 2) cs
    else (base, [c]) :: graphemeIndicesFrom (base + c.utf8Size) (d :: cs)

/-- Model of `graphemes(true)`: the clusters without their offsets, with the
same scalar-per-cluster-except-CRLF restriction (and the same exactness
domain) as `graphemeIndicesFrom`. -/
def graphemes : List Char → List (List Char)
  | [] => []
  | [c] => [[c]]
  | c :: d :: cs =>
    if c = '\r' ∧ d = '\n' then ['\r', '\n'] :: graphemes cs
    else [c] :: graphemes (d :: cs)

/-- Model of `graphemes(true).count()`. -/
def numGraphemes (s : List Char) : Nat :=
  (graphemes s).length

/-- Model of the free function `is_word_boundary` of the source: a run is a
word boundary when it has no alphanumeric character. -/
def is_word_boundary (s : List Char) : Bool :=
  !(s.any fun c => c.isAlphanum)

/-- Maximal runs of characters agreeing on `Char.isAlphanum`; the model of
the segments produced by `split_word_bounds`. -/
def wordRuns : List Char → List (List Char)
  | [] => []
  | c :: cs =>
    match wordRuns cs with
    | [] => [[c]]
    | [] :: rs => [c] :: [] :: rs
    | (d :: r) :: rs =>
      if c.isAlphanum = d.isAlphanum then (c :: d :: r) :: rs else [c] :: (d :: r) :: rs

/-- Pair every run with its starting byte offset, counting from `base`. -/
def withByteIndices (base : Nat) : List (List Char) → List (Nat × List Char)
  | [] => []
  | r :: rs => (base, r) :: withByteIndices (base + utf8Len r) rs

/-- Model of `split_word_bound_indices`. -/
def splitWordBoundIndices (s : List Char) : List (Nat × List Char) :=
  withByteIndices 0 (wordRuns s)

/-- The buffer state of the source: `lines` is the UTF-8 content,
`insertion_point` the byte offset of the cursor. -/
structure LineBuffer where
  lines : List Char
  insertion_point : Nat
deriving DecidableEq

namespace LineBuffer

/-- Model of `LineBuffer::new` (and `Default`): empty content, cursor 0. -/
def new : LineBuffer :=
  { lines := [], insertion_point := 0 }

/-- Model of `LineBuffer::is_empty`. -/
def is_empty (b : LineBuffer) : Bool :=
  b.lines.isEmpty

/-- Model of `LineBuffer::len`. -/
def len (b : LineBuffer) : Nat :=
  utf8Len b.lines

/-- Model of `LineBuffer::is_valid`: the cursor is on a char boundary, and on
a grapheme-cluster start or at the end of the content.  The third conjunct of
the source, UTF-8 validity of the bytes, holds by construction in this model
(the content is a list of scalar values). -/
def is_valid (b : LineBuffer) : Bool :=
  isCharBoundary b.lines b.insertion_point
    && ((graphemeIndicesFrom 0 b.lines).any (fun p => p.1 == b.insertion_point)
      || b.insertion_point == utf8Len b.lines)

/-- Model of `LineBuffer::find_current_line_end`.  The source's byte test
`lines.as_bytes()[absolute - 1] == b'\r'` holds exactly when the character
ending at byte `absolute` is a CR (the last byte of a multi-byte scalar is a
continuation byte, never 0x0D), i.e. when the characters before byte
`absolute` end with a CR. -/
def find_current_line_end (b : LineBuffer) : Nat :=
  match strFind '\n' (dropBytes b.lines b.insertion_point) with
  | none => utf8Len b.lines
  | some i =>
    let absolute := i + b.insertion_point
    if absolute > 0 && ((takeBytes b.lines absolute).getLast? == some '\r') then
      absolute - 1
    else
      absolute

/-- Model of `LineBuffer::grapheme_right_index`. -/
def grapheme_right_index (b : LineBuffer) : Nat :=
  match (graphemeIndicesFrom 0 (dropBytes b.lines b.insertion_point)).get? 1 with
  | some p => b.insertion_point + p.1
  | none => utf8Len b.lines

/-- Model of `LineBuffer::grapheme_left_index`. -/
def grapheme_left_index (b : LineBuffer) : Nat :=
  match (graphemeIndicesFrom 0 (takeBytes b.lines b.insertion_point)).getLast? with
  | some p => p.1
  | none => 0

/-- Model of `LineBuffer::word_right_index`. -/
def word_right_index (b : LineBuffer) : Nat :=
  match (splitWordBoundIndices (dropBytes b.lines b.insertion_point)).find?
      (fun p => !is_word_boundary p.2) with
  | some p => b.insertion_point + p.1 + utf8Len p.2
  | none => utf8Len b.lines

/-- Model of `LineBuffer::word_left_index`. -/
def word_left_index (b : LineBuffer) : Nat :=
  match ((splitWordBoundIndices (takeBytes b.lines b.insertion_point)).filter
      (fun p => !is_word_boundary p.2)).getLast? with
  | some p => p.1
  | none => 0

/-- Model of `LineBuffer::move_right`. -/
def move_right (b : LineBuffer) : LineBuffer :=
  { b with insertion_point := grapheme_right_index b }

/-- Model of `LineBuffer::move_left`. -/
def move_left (b : LineBuffer) : LineBuffer :=
  { b with insertion_point := grapheme_left_index b }

/-- Model of `LineBuffer::move_word_left`. -/
def move_word_left (b : LineBuffer) : LineBuffer :=
  { b with insertion_point := word_left_index b }

/-- Model of `LineBuffer::move_word_right`. -/
def move_word_right (b : LineBuffer) : LineBuffer :=
  { b with insertion_point := word_right_index b }

/-- Model of `LineBuffer::insert_str`: splice the text in at the cursor's
byte offset, advance the cursor by the inserted byte length. -/
def insert_str (b : LineBuffer) (s : List Char) : LineBuffer :=
  { lines := takeBytes b.lines b.insertion_point ++ s ++ dropBytes b.lines b.insertion_point,
    insertion_point := b.insertion_point + utf8Len s }

/-- Model of `LineBuffer::insert_char`: insert the character at the cursor,
then `move_right`. -/
def insert_char (b : LineBuffer) (c : Char) : LineBuffer :=
  move_right
    { b with
      lines := takeBytes b.lines b.insertion_point ++ c ::
        dropBytes b.lines b.insertion_point }

/-- Model of `LineBuffer::replace_range` for a bounded range `[a, b)`. -/
def replace_range (b : LineBuffer) (s e : Nat) (text : List Char) : LineBuffer :=
  { b with lines := takeBytes b.lines s ++ text ++ dropBytes b.lines e }

/-- Model of `LineBuffer::clear_range` for a bounded range `[a, b)`. -/
def clear_range (b : LineBuffer) (s e : Nat) : LineBuffer :=
  replace_range b s e []

/-- Model of `LineBuffer::delete_left_grapheme`. -/
def delete_left_grapheme (b : LineBuffer) : LineBuffer :=
  let left_index := grapheme_left_index b
  let insertion_offset := b.insertion_point
  if left_index < insertion_offset then
    { (clear_range b left_index insertion_offset) with insertion_point := left_index }
  else
    b

/-- Model of `LineBuffer::delete_right_grapheme`. -/
def delete_right_grapheme (b : LineBuffer) : LineBuffer :=
  let right_index := grapheme_right_index b
  let insertion_offset := b.insertion_point
  if right_index > insertion_offset then
    clear_range b insertion_offset right_index
  else
    b

/-- Model of `LineBuffer::current_word_range` (as a pair `(start, end)`). -/
def current_word_range (b : LineBuffer) : Nat × Nat :=
  let right_index := word_right_index b
  let left_index :=
    match ((splitWordBoundIndices (takeBytes b.lines right_index)).filter
        (fun p => !is_word_boundary p.2)).getLast? with
    | some p => p.1
    | none => 0
  (left_index, right_index)

/-- Model of `LineBuffer::current_line_range` (as a pair `(start, end)`). -/
def current_line_range (b : LineBuffer) : Nat × Nat :=
  let left_index :=
    match strRFind '\n' (takeBytes b.lines b.insertion_point) with
    | some off => off + 1
    | none => 0
  let right_index :=
    match strFind '\n' (dropBytes b.lines b.insertion_point) with
    | some i => i + b.insertion_point + 1
    | none => utf8Len b.lines
  (left_index, right_index)

/-- Model of `LineBuffer::is_cursor_at_first_line`. -/
def is_cursor_at_first_line (b : LineBuffer) : Bool :=
  !(takeBytes b.lines b.insertion_point).contains '\n'

/-- Model of `LineBuffer::is_cursor_at_last_line`. -/
def is_cursor_at_last_line (b : LineBuffer) : Bool :=
  !(dropBytes b.lines b.insertion_point).contains '\n'

/-- Model of `LineBuffer::swap_words`. -/
def swap_words (b : LineBuffer) : LineBuffer :=
  let word_1_range := current_word_range b
  let b1 := move_word_right b
  let word_2_range := current_word_range b1
  if word_1_range ≠ word_2_range then
    let b2 := move_word_left b1
    let word_1 := sliceBytes b2.lines word_1_range.1 word_1_range.2
    let word_2 := sliceBytes b2.lines word_2_range.1 word_2_range.2
    let b3 := replace_range b2 word_2_range.1 word_2_range.2 word_1
    replace_range b3 word_1_range.1 word_1_range.2 word_2
  else
    b1

/-- Model of `LineBuffer::swap_graphemes`. -/
def swap_graphemes (b : LineBuffer) : LineBuffer :=
  let initial_offset := b.insertion_point
  let b1 :=
    if initial_offset = 0 then move_right b
    else if initial_offset = utf8Len b.lines then move_left b
    else b
  let updated_offset := b1.insertion_point
  let grapheme_1_start := grapheme_left_index b1
  let grapheme_2_end := grapheme_right_index b1
  if grapheme_1_start < updated_offset ∧ updated_offset < grapheme_2_end then
    let grapheme_1 := sliceBytes b1.lines grapheme_1_start updated_offset
    let grapheme_2 := sliceBytes b1.lines updated_offset grapheme_2_end
    let b2 := replace_range b1 updated_offset grapheme_2_end grapheme_1
    let b3 := replace_range b2 grapheme_1_start updated_offset grapheme_2
    { b3 with insertion_point := grapheme_2_end }
  else
    { b1 with insertion_point := updated_offset }

/-- Model of `LineBuffer::move_line_up`. -/
def move_line_up (b : LineBuffer) : LineBuffer :=
  if is_cursor_at_first_line b then b
  else
    let old_range := current_line_range b
    let grapheme_col := numGraphemes (sliceBytes b.lines old_range.1 b.insertion_point)
    let b1 := move_left { b with insertion_point := old_range.1 }
    let new_range := current_line_range b1
    let new_line := sliceBytes b1.lines new_range.1 new_range.2
    let target :=
      match ((graphemeIndicesFrom 0 new_line).take (grapheme_col + 1)).getLast? with
      | some p => p.1 + new_range.1
      | none => new_range.1
    { b1 with insertion_point := target }

/-- Model of `LineBuffer::move_line_down`. -/
def move_line_down (b : LineBuffer) : LineBuffer :=
  if is_cursor_at_last_line b then b
  else
    let old_range := current_line_range b
    let grapheme_col := numGraphemes (sliceBytes b.lines old_range.1 b.insertion_point)
    let b1 := { b with insertion_point := old_range.2 }
    let new_range := current_line_range b1
    let new_line := sliceBytes b1.lines new_range.1 new_range.2
    let target :=
      match (graphemeIndicesFrom 0 new_line).get? grapheme_col with
      | some p => p.1 + new_range.1
      | none => find_current_line_end b1
    { b1 with insertion_point := target }

/-- Model of `LineBuffer::find_char_right`: the search starts just past the
grapheme under the cursor. -/
def find_char_right (b : LineBuffer) (c : Char) (current_line : Bool) : Option Nat :=
  let char_offset := grapheme_right_index b
  let stop := if current_line then (current_line_range b).2 else utf8Len b.lines
  (strFind c (sliceBytes b.lines char_offset stop)).map (fun index => index + char_offset)

/-- Model of `LineBuffer::find_char_left`. -/
def find_char_left (b : LineBuffer) (c : Char) (current_line : Bool) : Option Nat :=
  let start := if current_line then (current_line_range b).1 else 0
  (strRFind c (sliceBytes b.lines start b.insertion_point)).map (fun i => i + start)

/-- Model of `LineBuffer::move_right_until`. -/
def move_right_until (b : LineBuffer) (c : Char) (current_line : Bool) : LineBuffer :=
  match find_char_right b c current_line with
  | some index => { b with insertion_point := index }
  | none => b

/-- Model of `LineBuffer::move_right_before`: land on the match, then step one
grapheme back. -/
def move_right_before (b : LineBuffer) (c : Char) (current_line : Bool) : LineBuffer :=
  match find_char_right b c current_line with
  | some index =>
    let b1 := { b with insertion_point := index }
    { b1 with insertion_point := grapheme_left_index b1 }
  | none => b

/-- Model of `LineBuffer::move_left_until`. -/
def move_left_until (b : LineBuffer) (c : Char) (current_line : Bool) : LineBuffer :=
  match find_char_left b c current_line with
  | some index => { b with insertion_point := index }
  | none => b

/-- Model of `LineBuffer::move_left_before`: land one character width past
the match, using the matched character's own UTF-8 length. -/
def move_left_before (b : LineBuffer) (c : Char) (current_line : Bool) : LineBuffer :=
  match find_char_left b c current_line with
  | some index => { b with insertion_point := index + c.utf8Size }
  | none => b

/-- Model of `LineBuffer::delete_right_until_char`. -/
def delete_right_until_char (b : LineBuffer) (c : Char) (current_line : Bool) : LineBuffer :=
  match find_char_right b c current_line with
  | some index => clear_range b b.insertion_point (index + c.utf8Size)
  | none => b

/-- Model of `LineBuffer::delete_right_before_char`. -/
def delete_right_before_char (b : LineBuffer) (c : Char) (current_line : Bool) : LineBuffer :=
  match find_char_right b c current_line with
  | some index => clear_range b b.insertion_point index
  | none => b

/-- Model of `LineBuffer::delete_left_until_char`. -/
def delete_left_until_char (b : LineBuffer) (c : Char) (current_line : Bool) : LineBuffer :=
  match find_char_left b c current_line with
  | some index =>
    { (clear_range b index b.insertion_point) with insertion_point := index }
  | none => b

/-- Model of `LineBuffer::delete_left_before_char`. -/
def delete_left_before_char (b : LineBuffer) (c : Char) (current_line : Bool) : LineBuffer :=
  match find_char_left b c current_line with
  | some index =>
    { (clear_range b (index + c.utf8Size) b.insertion_point) with
      insertion_point := index + c.utf8Size }
  | none => b

end LineBuffer

/-- Model of the `From` impl for `LineBuffer` (used by the tests'
`buffer_with`): insert the text into a fresh buffer. -/
def bufferWith (s : List Char) : LineBuffer :=
  LineBuffer.new.insert_str s

/-!
Spec-side definitions: direct renderings of the specification's wording,
used to state the claims and compared against the source-derived
operations above.
-/

/-- Byte offsets of all occurrences of `c`, counted from `base`. -/
def occurrencesAux (c : Char) (base : Nat) : List Char → List Nat
  | [] => []
  | d :: ds =>
    if d = c then base :: occurrencesAux c (base + d.utf8Size) ds
    else occurrencesAux c (base + d.utf8Size) ds

/-- Byte offsets of all occurrences of `c` in `s`. -/
def occurrences (c : Char) (s : List Char) : List Nat :=
  occurrencesAux c 0 s

/-- Byte offset of the first line feed at or after byte `ip`. -/
def firstNlAtOrAfter (s : List Char) (ip : Nat) : Option Nat :=
  ((occurrences '\n' s).filter (fun p => decide (ip ≤ p))).head?

/-- The character whose UTF-8 encoding ends exactly at byte `n`. -/
def charEndingAt : List Char → Nat → Option Char
  | [], _ => none
  | c :: cs, n =>
    if n = c.utf8Size then some c
    else if c.utf8Size < n then charEndingAt cs (n - c.utf8Size) else none

/-- The character whose UTF-8 encoding starts exactly at byte `n`. -/
def charAt : List Char → Nat → Option Char
  | [], _ => none
  | c :: cs, n =>
    if n = 0 then some c
    else if c.utf8Size ≤ n then charAt cs (n - c.utf8Size) else none

/-- Spec wording of `find_current_line_end`: the first LF at or after the
cursor, excluding a CR sitting directly before it; end of buffer if no LF
is found. -/
def lineEndSpec (s : List Char) (ip : Nat) : Nat :=
  match firstNlAtOrAfter s ip with
  | none => utf8Len s
  | some p => if charEndingAt s p = some '\r' then p - 1 else p

/-- Spec wording of a line start: just past the last LF before the offset,
0 if there is none. -/
def lineStartAt (s : List Char) (p : Nat) : Nat :=
  match strRFind '\n' (takeBytes s p) with
  | some r => r + 1
  | none => 0

/-- Byte offset reached by walking `k` clusters into a segmented text,
clamped to the end of the text. -/
def walkBytes (rs : List (List Char)) (k : Nat) : Nat :=
  utf8Len (rs.take k).flatten

/-- Spec wording of the cursor's grapheme column: the count of graphemes
between the current line's start and the cursor. -/
def graphemeColumn (s : List Char) (ip : Nat) : Nat :=
  numGraphemes (sliceBytes s (lineStartAt s ip) ip)

/-- The content of the line starting at byte `p`: the text up to the line's
end, excluding the terminator. -/
def lineContent (s : List Char) (p : Nat) : List Char :=
  sliceBytes s p (lineEndSpec s p)

/-- Spec wording of the vertical-move target: walk `col` graphemes into the
line starting at `lineStart`, clamping to that line's length. -/
def columnTarget (s : List Char) (lineStart col : Nat) : Nat :=
  lineStart + walkBytes (graphemes (lineContent s lineStart)) col

/-- The tail of `swap_graphemes` operating on the buffer after the edge
adjustment of the cursor; used to state and prove the characterization of
`swap_graphemes` in two stages, mirroring the source's control flow. -/
def swapCore (b1 : LineBuffer) : LineBuffer :=
  let updated_offset := b1.insertion_point
  let grapheme_1_start := b1.grapheme_left_index
  let grapheme_2_end := b1.grapheme_right_index
  if grapheme_1_start < updated_offset ∧ updated_offset < grapheme_2_end then
    let grapheme_1 := sliceBytes b1.lines grapheme_1_start updated_offset
    let grapheme_2 := sliceBytes b1.lines updated_offset grapheme_2_end
    let b2 := b1.replace_range updated_offset grapheme_2_end grapheme_1
    let b3 := b2.replace_range grapheme_1_start updated_offset grapheme_2
    { b3 with insertion_point := grapheme_2_end }
  else
    { b1 with insertion_point := updated_offset }

/-- The cursor offset `swap_graphemes` operates at after its documented edge
adjustment: at offset 0 one grapheme step to the right, at the end of the
buffer one grapheme step to the left. -/
def swapAdjustedOffset (b : LineBuffer) : Nat :=
  if b.insertion_point = 0 then b.grapheme_right_index
  else if b.insertion_point = utf8Len b.lines then b.grapheme_left_index
  else b.insertion_point

/-- A concrete buffer mirroring the repository's swap tests: `"This is a
test"` with the cursor at the end. -/
def c5buf : LineBuffer :=
  ⟨String.toList "This is a test", 14⟩

/-- A concrete two-line buffer with the cursor in the second line, for the
vertical-move claim. -/
def c3buf : LineBuffer :=
  ⟨String.toList "abc\ndef", 5⟩

/-- The UAX 29 `Extend` property, restricted to the Combining Diacritical
Marks block U+0300–U+036F (every character of that block is `Extend`);
enough for the combining-mark texts appearing in this development. -/
def isExtend (c : Char) : Bool :=
  0x300 ≤ c.toNat && c.toNat ≤ 0x36F

/-- Fuller model of the unicode-segmentation crate's extended grapheme
clusters: in addition to the CR LF join (rule GB3) it implements rule GB9 —
no break before an `Extend` character — with the GB4/GB5 breaks around the
CR and LF controls.  `cur` is the reversed cluster being built.  This agrees
with the crate on text whose characters are drawn from CR, LF, the
U+0300–U+036F block and characters with no special break property (no ZWJ,
regional indicators, Hangul jamo, Prepend or SpacingMark). -/
def uniGraphemesAux (cur : List Char) : List Char → List (List Char)
  | [] => [cur.reverse]
  | c :: cs =>
    if cur.head? = some '\r' ∧ c = '\n' then
      uniGraphemesAux (c :: cur) cs
    else if isExtend c = true ∧ cur.head? ≠ some '\r' ∧ cur.head? ≠ some '\n' then
      uniGraphemesAux (c :: cur) cs
    else
      cur.reverse :: uniGraphemesAux [c] cs

/-- Fuller model of `graphemes(true)`: see `uniGraphemesAux`. -/
def uniGraphemes : List Char → List (List Char)
  | [] => []
  | c :: cs => uniGraphemesAux [c] cs

/-- `LineBuffer::grapheme_left_index` under the fuller segmentation
`uniGraphemes`: the byte offset of the last cluster of the text before the
cursor (`grapheme_indices(true).last()`), 0 if there is none. -/
def uni_grapheme_left_index (b : LineBuffer) : Nat :=
  match (withByteIndices 0 (uniGraphemes (takeBytes b.lines b.insertion_point))).getLast? with
  | some p => p.1
  | none => 0

/-- `LineBuffer::delete_left_grapheme` under the fuller segmentation. -/
def uni_delete_left_grapheme (b : LineBuffer) : LineBuffer :=
  let left_index := uni_grapheme_left_index b
  let insertion_offset := b.insertion_point
  if left_index < insertion_offset then
    { (LineBuffer.clear_range b left_index insertion_offset) with
      insertion_point := left_index }
  else
    b

/-- `LineBuffer::is_valid` under the fuller segmentation. -/
def uni_is_valid (b : LineBuffer) : Bool :=
  isCharBoundary b.lines b.insertion_point
    && ((withByteIndices 0 (uniGraphemes b.lines)).any (fun p => p.1 == b.insertion_point)
      || b.insertion_point == utf8Len b.lines)

/-!
Byte-arithmetic lemmas about `utf8Len`, `takeBytes`, `dropBytes` and
`isCharBoundary`.
-/

@[simp] theorem utf8Len_nil : utf8Len [] = 0 := rfl

@[simp] theorem utf8Len_cons (c : Char) (s : List Char) :
    utf8Len (c :: s) = c.utf8Size + utf8Len s := rfl

@[simp] theorem utf8Len_append (u v : List Char) :
    utf8Len (u ++ v) = utf8Len u + utf8Len v := by
  induction u with
  | nil => simp
  | cons c cs ih => simp [ih]; omega

theorem utf8Len_pos {s : List Char} (h : s ≠ []) : 0 < utf8Len s := by
  cases s with
  | nil => simp at h
  | cons c cs =>
    have := Char.utf8Size_pos c
    simp only [utf8Len_cons]
    omega

theorem utf8Len_eq_zero {s : List Char} (h : utf8Len s = 0) : s = [] := by
  cases s with
  | nil => rfl
  | cons c cs =>
    have := Char.utf8Size_pos c
    simp only [utf8Len_cons] at h
    omega

@[simp] theorem takeBytes_nil (n : Nat) : takeBytes [] n = [] := rfl

@[simp] theorem dropBytes_nil (n : Nat) : dropBytes [] n = [] := rfl

@[simp] theorem takeBytes_zero (s : List Char) : takeBytes s 0 = [] := by
  cases s with
  | nil => rfl
  | cons c cs => simp [takeBytes, Nat.le_zero, (Char.utf8Size_pos c).ne']

@[simp] theorem dropBytes_zero (s : List Char) : dropBytes s 0 = s := by
  cases s with
  | nil => rfl
  | cons c cs => simp [dropBytes, Nat.le_zero, (Char.utf8Size_pos c).ne']

theorem takeBytes_append_dropBytes (s : List Char) (n : Nat) :
    takeBytes s n ++ dropBytes s n = s := by
  induction s generalizing n with
  | nil => rfl
  | cons c cs ih =>
    simp only [takeBytes, dropBytes]
    split <;> simp [ih]

theorem takeBytes_len_append (u v : List Char) : takeBytes (u ++ v) (utf8Len u) = u := by
  induction u with
  | nil => simp
  | cons c cs ih =>
    simp [takeBytes, Nat.le_add_right, Nat.add_sub_cancel_left, ih]

theorem dropBytes_len_append (u v : List Char) : dropBytes (u ++ v) (utf8Len u) = v := by
  induction u with
  | nil => simp
  | cons c cs ih =>
    simp [dropBytes, Nat.le_add_right, Nat.add_sub_cancel_left, ih]

theorem takeBytes_append_add (u v : List Char) (m : Nat) :
    takeBytes (u ++ v) (utf8Len u + m) = u ++ takeBytes v m := by
  induction u with
  | nil => simp
  | cons c cs ih =>
    simp only [List.cons_append, takeBytes, utf8Len_cons, List.append_eq,
      if_pos (by omega : c.utf8Size ≤ c.utf8Size + utf8Len cs + m)]
    rw [show c.utf8Size + utf8Len cs + m - c.utf8Size = utf8Len cs + m by omega, ih]

theorem dropBytes_append_add (u v : List Char) (m : Nat) :
    dropBytes (u ++ v) (utf8Len u + m) = dropBytes v m := by
  induction u with
  | nil => simp
  | cons c cs ih =>
    simp only [List.cons_append, dropBytes, utf8Len_cons, List.append_eq,
      if_pos (by omega : c.utf8Size ≤ c.utf8Size + utf8Len cs + m)]
    rw [show c.utf8Size + utf8Len cs + m - c.utf8Size = utf8Len cs + m by omega, ih]

theorem utf8Len_takeBytes_le (s : List Char) (n : Nat) : utf8Len (takeBytes s n) ≤ n := by
  induction s generalizing n with
  | nil => simp
  | cons c cs ih =>
    simp only [takeBytes]
    split
    · simp only [utf8Len_cons]
      have := ih (n - c.utf8Size)
      omega
    · simp

theorem takeBytes_takeBytes (s : List Char) {m n : Nat} (h : m ≤ n) :
    takeBytes (takeBytes s n) m = takeBytes s m := by
  induction s generalizing m n with
  | nil => simp
  | cons c cs ih =>
    by_cases hn : c.utf8Size ≤ n
    · by_cases hm : c.utf8Size ≤ m
      · simp only [takeBytes, if_pos hn, if_pos hm]
        rw [ih (by omega : m - c.utf8Size ≤ n - c.utf8Size)]
      · simp only [takeBytes, if_pos hn, if_neg hm]
    · have hm : ¬ c.utf8Size ≤ m := by omega
      simp only [takeBytes, if_neg hn, if_neg hm, takeBytes_nil]

/-- An offset is a char boundary exactly when it splits the text. -/
theorem isCharBoundary_iff {s : List Char} {n : Nat} :
    isCharBoundary s n = true ↔ ∃ u v, s = u ++ v ∧ utf8Len u = n := by
  constructor
  · intro h
    induction s generalizing n with
    | nil =>
      simp only [isCharBoundary, beq_iff_eq] at h
      exact ⟨[], [], rfl, by simp [h]⟩
    | cons c cs ih =>
      simp only [isCharBoundary] at h
      by_cases h0 : n = 0
      · exact ⟨[], c :: cs, rfl, by simp [h0]⟩
      · rw [if_neg h0] at h
        by_cases hle : c.utf8Size ≤ n
        · rw [if_pos hle] at h
          obtain ⟨u, v, rfl, hu⟩ := ih h
          exact ⟨c :: u, v, rfl, by simp [hu]; omega⟩
        · rw [if_neg hle] at h
          exact absurd h (by simp)
  · rintro ⟨u, v, rfl, rfl⟩
    induction u with
    | nil =>
      cases v with
      | nil => rfl
      | cons c cs => simp [isCharBoundary]
    | cons c cs ih =>
      have := Char.utf8Size_pos c
      simp only [List.cons_append, isCharBoundary, utf8Len_cons,
        if_neg (by omega : ¬ c.utf8Size + utf8Len cs = 0),
        if_pos (by omega : c.utf8Size ≤ c.utf8Size + utf8Len cs)]
      rw [show c.utf8Size + utf8Len cs - c.utf8Size = utf8Len cs by omega]
      exact ih

theorem isCharBoundary_zero (s : List Char) : isCharBoundary s 0 = true :=
  isCharBoundary_iff.mpr ⟨[], s, rfl, rfl⟩

theorem isCharBoundary_utf8Len (s : List Char) : isCharBoundary s (utf8Len s) = true :=
  isCharBoundary_iff.mpr ⟨s, [], by simp, rfl⟩

theorem isCharBoundary_le {s : List Char} {n : Nat} (h : isCharBoundary s n = true) :
    n ≤ utf8Len s := by
  obtain ⟨u, v, rfl, rfl⟩ := isCharBoundary_iff.mp h
  simp

theorem utf8Len_takeBytes_of_bd {s : List Char} {n : Nat}
    (h : isCharBoundary s n = true) : utf8Len (takeBytes s n) = n := by
  obtain ⟨u, v, rfl, rfl⟩ := isCharBoundary_iff.mp h
  rw [takeBytes_len_append]

theorem takeBytes_bd_decomp {s : List Char} {n : Nat} (h : isCharBoundary s n = true) :
    s = takeBytes s n ++ dropBytes s n ∧ utf8Len (takeBytes s n) = n :=
  ⟨(takeBytes_append_dropBytes s n).symm, utf8Len_takeBytes_of_bd h⟩

theorem isCharBoundary_append_left {u : List Char} {m : Nat} (v : List Char)
    (h : isCharBoundary u m = true) : isCharBoundary (u ++ v) m = true := by
  obtain ⟨u1, u2, rfl, rfl⟩ := isCharBoundary_iff.mp h
  exact isCharBoundary_iff.mpr ⟨u1, u2 ++ v, by simp, rfl⟩

theorem isCharBoundary_append_add (u : List Char) {v : List Char} {m : Nat}
    (h : isCharBoundary v m = true) : isCharBoundary (u ++ v) (utf8Len u + m) = true := by
  obtain ⟨v1, v2, rfl, rfl⟩ := isCharBoundary_iff.mp h
  exact isCharBoundary_iff.mpr ⟨u ++ v1, v2, by simp, by simp⟩

theorem isCharBoundary_lift {s : List Char} {a m : Nat}
    (ha : isCharBoundary s a = true)
    (hm : isCharBoundary (dropBytes s a) m = true) :
    isCharBoundary s (a + m) = true := by
  obtain ⟨u, v, hs, hu⟩ := isCharBoundary_iff.mp ha
  have hdrop : dropBytes s a = v := by rw [hs, ← hu, dropBytes_len_append]
  rw [hdrop] at hm
  obtain ⟨w1, w2, hv, hw⟩ := isCharBoundary_iff.mp hm
  exact isCharBoundary_iff.mpr ⟨u ++ w1, w2, by rw [hs, hv, List.append_assoc], by simp [hu, hw]⟩

theorem takeBytes_add {s : List Char} {a : Nat} (m : Nat)
    (h : isCharBoundary s a = true) :
    takeBytes s (a + m) = takeBytes s a ++ takeBytes (dropBytes s a) m := by
  obtain ⟨u, v, rfl, rfl⟩ := isCharBoundary_iff.mp h
  rw [takeBytes_append_add, takeBytes_len_append, dropBytes_len_append]

theorem dropBytes_add {s : List Char} {a : Nat} (m : Nat)
    (h : isCharBoundary s a = true) :
    dropBytes s (a + m) = dropBytes (dropBytes s a) m := by
  obtain ⟨u, v, rfl, rfl⟩ := isCharBoundary_iff.mp h
  rw [dropBytes_append_add, dropBytes_len_append]

theorem sliceBytes_len_append (u v w : List Char) :
    sliceBytes (u ++ v ++ w) (utf8Len u) (utf8Len u + utf8Len v) = v := by
  unfold sliceBytes
  rw [List.append_assoc, dropBytes_len_append,
    show utf8Len u + utf8Len v - utf8Len u = utf8Len v by omega, takeBytes_len_append]

/-!
Lemmas about the grapheme segmentation model.
-/

@[simp] theorem graphemes_nil : graphemes [] = [] := rfl

theorem graphemes_crlf (cs : List Char) :
    graphemes ('\r' :: '\n' :: cs) = ['\r', '\n'] :: graphemes cs := by
  simp [graphemes]

theorem graphemes_cons2 {c d : Char} (cs : List Char) (h : ¬(c = '\r' ∧ d = '\n')) :
    graphemes (c :: d :: cs) = [c] :: graphemes (d :: cs) := by
  rw [graphemes, if_neg h]

theorem graphemes_single (c : Char) : graphemes [c] = [[c]] := rfl

theorem twoStepInduction {P : List Char → Prop} (h0 : P []) (h1 : ∀ c, P [c])
    (h2 : ∀ c d cs, P cs → P (d :: cs) → P (c :: d :: cs)) : ∀ s, P s
  | [] => h0
  | [c] => h1 c
  | c :: d :: cs =>
    h2 c d cs (twoStepInduction h0 h1 h2 cs) (twoStepInduction h0 h1 h2 (d :: cs))

theorem graphemeIndicesFrom_eq (s : List Char) :
    ∀ base, graphemeIndicesFrom base s = withByteIndices base (graphemes s) := by
  induction s using twoStepInduction with
  | h0 => intro base; rfl
  | h1 c => intro base; rfl
  | h2 c d cs ih1 ih2 =>
    intro base
    by_cases h : c = '\r' ∧ d = '\n'
    · obtain ⟨rfl, rfl⟩ := h
      rw [graphemes_crlf, graphemeIndicesFrom, if_pos ⟨rfl, rfl⟩, withByteIndices, ih1]
      norm_num [utf8Len, (by decide : Char.utf8Size '\r' = 1), (by decide : Char.utf8Size '\n' = 1)]
    · rw [graphemes_cons2 cs h, graphemeIndicesFrom, if_neg h, withByteIndices, ih2]
      norm_num [utf8Len]

theorem graphemes_flatten (s : List Char) : (graphemes s).flatten = s := by
  induction s using twoStepInduction with
  | h0 => rfl
  | h1 c => rfl
  | h2 c d cs ih1 ih2 =>
    by_cases h : c = '\r' ∧ d = '\n'
    · obtain ⟨rfl, rfl⟩ := h
      rw [graphemes_crlf, List.flatten_cons, ih1]
      rfl
    · rw [graphemes_cons2 cs h, List.flatten_cons, ih2]
      rfl

theorem graphemes_eq_nil {s : List Char} (h : graphemes s = []) : s = [] := by
  have := graphemes_flatten s
  rw [h] at this
  simpa using this.symm

theorem mem_graphemes_shape {s g : List Char} (h : g ∈ graphemes s) :
    (∃ c, g = [c]) ∨ g = ['\r', '\n'] := by
  induction s using twoStepInduction with
  | h0 => simp [graphemes] at h
  | h1 c =>
    rw [graphemes_single] at h
    simp at h
    exact Or.inl ⟨c, h⟩
  | h2 c d cs ih1 ih2 =>
    by_cases hcd : c = '\r' ∧ d = '\n'
    · obtain ⟨rfl, rfl⟩ := hcd
      rw [graphemes_crlf] at h
      rcases List.mem_cons.mp h with h | h
      · exact Or.inr h
      · exact ih1 h
    · rw [graphemes_cons2 cs hcd] at h
      rcases List.mem_cons.mp h with h | h
      · exact Or.inl ⟨c, h⟩
      · exact ih2 h

theorem mem_graphemes_ne_nil {s g : List Char} (h : g ∈ graphemes s) : g ≠ [] := by
  rcases mem_graphemes_shape h with ⟨c, rfl⟩ | rfl <;> simp

theorem graphemes_of_cluster {g : List Char}
    (h : (∃ c, g = [c]) ∨ g = ['\r', '\n']) : graphemes g = [g] := by
  rcases h with ⟨c, rfl⟩ | rfl
  · rfl
  · rfl

theorem graphemes_append {u v : List Char}
    (h : ¬(u.getLast? = some '\r' ∧ v.head? = some '\n')) :
    graphemes (u ++ v) = graphemes u ++ graphemes v := by
  induction u using twoStepInduction with
  | h0 => simp
  | h1 c =>
    cases v with
    | nil => simp
    | cons e v' =>
      by_cases hc : c = '\r' ∧ e = '\n'
      · exact absurd ⟨by simp [hc.1], by simp [hc.2]⟩ h
      · rw [List.singleton_append, graphemes_cons2 v' hc, graphemes_single,
          List.singleton_append]
  | h2 c d cs ih1 ih2 =>
    by_cases hcd : c = '\r' ∧ d = '\n'
    · obtain ⟨rfl, rfl⟩ := hcd
      cases cs with
      | nil => rw [graphemes_crlf, List.cons_append, List.cons_append, List.nil_append,
          graphemes_crlf]; rfl
      | cons x xs =>
        rw [List.getLast?_cons_cons, List.getLast?_cons_cons] at h
        rw [List.cons_append, List.cons_append, graphemes_crlf, ih1 h, graphemes_crlf,
          List.cons_append]
    · rw [List.getLast?_cons_cons] at h
      rw [List.cons_append, List.cons_append, graphemes_cons2 _ hcd, ← List.cons_append,
        ih2 h, graphemes_cons2 _ hcd, List.cons_append]

/-!
Lemmas about segment lists paired with byte offsets.
-/

theorem getLast?_cons_of_ne {α : Type} (a : α) {l : List α} (h : l ≠ []) :
    (a :: l).getLast? = l.getLast? := by
  cases l with
  | nil => exact absurd rfl h
  | cons b m => exact List.getLast?_cons_cons

theorem withByteIndices_ne_nil {base : Nat} {rs : List (List Char)} (h : rs ≠ []) :
    withByteIndices base rs ≠ [] := by
  cases rs with
  | nil => exact absurd rfl h
  | cons r rs => simp [withByteIndices]

theorem withByteIndices_length (base : Nat) (rs : List (List Char)) :
    (withByteIndices base rs).length = rs.length := by
  induction rs generalizing base with
  | nil => rfl
  | cons r rs ih => simp [withByteIndices, ih]

theorem withByteIndices_append_last (base : Nat) (rs : List (List Char)) (t : List Char) :
    (withByteIndices base (rs ++ [t])).getLast? = some (base + utf8Len rs.flatten, t) := by
  induction rs generalizing base with
  | nil => simp [withByteIndices]
  | cons r rs ih =>
    rw [List.cons_append, withByteIndices,
      getLast?_cons_of_ne _ (withByteIndices_ne_nil (by simp)), ih]
    simp
    omega

theorem withByteIndices_get? (base : Nat) (rs : List (List Char)) (k : Nat) :
    (withByteIndices base rs).get? k =
      (rs.get? k).map (fun r => (base + utf8Len (rs.take k).flatten, r)) := by
  induction rs generalizing base k with
  | nil => simp [withByteIndices]
  | cons r rs ih =>
    cases k with
    | zero => simp [withByteIndices]
    | succ k =>
      rw [withByteIndices]
      show (withByteIndices (base + utf8Len r) rs).get? k = _
      rw [ih]
      cases hx : rs.get? k with
      | none => rw [List.get?_eq_getElem?] at hx; simp [hx]
      | some x =>
        simp only [Option.map_some, List.get?_cons_succ, hx, List.take_succ_cons,
          List.flatten_cons, utf8Len_append]
        exact congrArg some (by ext <;> simp <;> omega)

theorem withByteIndices_mem {base : Nat} {rs : List (List Char)} {p : Nat × List Char}
    (h : p ∈ withByteIndices base rs) :
    ∃ rs1 rs2, rs = rs1 ++ p.2 :: rs2 ∧ p.1 = base + utf8Len rs1.flatten := by
  induction rs generalizing base with
  | nil => simp [withByteIndices] at h
  | cons r rs ih =>
    rw [withByteIndices, List.mem_cons] at h
    rcases h with h | h
    · refine ⟨[], rs, ?_, ?_⟩ <;> simp [h]
    · obtain ⟨rs1, rs2, hrs, hp⟩ := ih h
      exact ⟨r :: rs1, rs2, by simp [hrs], by simp [hp]; omega⟩

theorem take_succ_getLast?_eq_get? {α : Type} {l : List α} {k : Nat} (h : k < l.length) :
    (l.take (k + 1)).getLast? = l.get? k := by
  induction l generalizing k with
  | nil => simp at h
  | cons a l ih =>
    cases k with
    | zero => simp
    | succ k =>
      have hl : k < l.length := by simpa using h
      have hne : l.take (k + 1) ≠ [] := by
        cases l with
        | nil => simp at hl
        | cons b m => simp
      rw [List.take_succ_cons, getLast?_cons_of_ne _ hne, ih hl, List.get?_cons_succ]

theorem withByteIndices_take_last (base : Nat) (rs : List (List Char)) (t : List Char)
    (k : Nat) :
    ∃ g, ((withByteIndices base (rs ++ [t])).take (k + 1)).getLast? =
      some (base + walkBytes rs k, g) := by
  by_cases hk : k < rs.length
  · have hlen : k < (withByteIndices base (rs ++ [t])).length := by
      rw [withByteIndices_length, List.length_append]
      simp
      omega
    rw [take_succ_getLast?_eq_get? hlen, withByteIndices_get?,
      List.get?_append hk, List.take_append_of_le_length (le_of_lt hk)]
    cases hx : rs.get? k with
    | none => rw [List.get?_eq_none] at hx; omega
    | some x => exact ⟨x, by simp [walkBytes]⟩
  · have hlen : (withByteIndices base (rs ++ [t])).length ≤ k + 1 := by
      rw [withByteIndices_length, List.length_append]
      simp
      omega
    rw [List.take_of_length_le hlen, withByteIndices_append_last]
    refine ⟨t, ?_⟩
    rw [walkBytes, List.take_of_length_le (by omega : rs.length ≤ k)]

/-!
Decomposition of the grapheme boundary queries: the offsets they return
cut the text exactly at a cluster.
-/

theorem grapheme_left_decomp {s : List Char} {ip : Nat}
    (hbd : isCharBoundary s ip = true) (hpos : 0 < ip) :
    ∃ pre g, takeBytes s ip = pre ++ g ∧
      ((∃ c, g = [c]) ∨ g = ['\r', '\n']) ∧
      utf8Len pre + utf8Len g = ip ∧
      LineBuffer.grapheme_left_index ⟨s, ip⟩ = utf8Len pre ∧
      (graphemes (takeBytes s ip)).getLast? = some g := by
  have htake : utf8Len (takeBytes s ip) = ip := utf8Len_takeBytes_of_bd hbd
  have hne : takeBytes s ip ≠ [] := by
    intro h
    rw [h] at htake
    simp at htake
    omega
  rcases List.eq_nil_or_concat (graphemes (takeBytes s ip)) with hg | ⟨rs, g, hrs⟩
  · exact absurd (graphemes_eq_nil hg) hne
  rw [List.concat_eq_append] at hrs
  have hflat : rs.flatten ++ g = takeBytes s ip := by
    have := graphemes_flatten (takeBytes s ip)
    rw [hrs] at this
    simpa using this
  refine ⟨rs.flatten, g, hflat.symm, ?_, ?_, ?_, ?_⟩
  · exact mem_graphemes_shape (by rw [hrs]; simp)
  · rw [← htake, ← hflat, utf8Len_append]
  · show LineBuffer.grapheme_left_index ⟨s, ip⟩ = utf8Len rs.flatten
    unfold LineBuffer.grapheme_left_index
    rw [show ({ lines := s, insertion_point := ip } : LineBuffer).lines = s from rfl,
      show ({ lines := s, insertion_point := ip } : LineBuffer).insertion_point = ip from rfl,
      graphemeIndicesFrom_eq, hrs, withByteIndices_append_last]
    simp
  · rw [hrs, List.getLast?_concat]

theorem grapheme_right_decomp {s : List Char} {ip : Nat}
    (hbd : isCharBoundary s ip = true) (hlt : ip < utf8Len s) :
    ∃ g rest, dropBytes s ip = g ++ rest ∧
      ((∃ c, g = [c]) ∨ g = ['\r', '\n']) ∧
      LineBuffer.grapheme_right_index ⟨s, ip⟩ = ip + utf8Len g ∧
      (graphemes (dropBytes s ip)).head? = some g := by
  have hlen : utf8Len s = ip + utf8Len (dropBytes s ip) := by
    conv_lhs => rw [← takeBytes_append_dropBytes s ip]
    rw [utf8Len_append, utf8Len_takeBytes_of_bd hbd]
  have hne : dropBytes s ip ≠ [] := by
    intro h
    rw [h] at hlen
    simp at hlen
    omega
  cases hgr : graphemes (dropBytes s ip) with
  | nil => exact absurd (graphemes_eq_nil hgr) hne
  | cons g rs =>
    have hflat : g ++ rs.flatten = dropBytes s ip := by
      have := graphemes_flatten (dropBytes s ip)
      rw [hgr] at this
      simpa using this
    refine ⟨g, rs.flatten, hflat.symm, mem_graphemes_shape (by rw [hgr]; simp), ?_,
      by simp [hgr]⟩
    unfold LineBuffer.grapheme_right_index
    rw [show ({ lines := s, insertion_point := ip } : LineBuffer).lines = s from rfl,
      show ({ lines := s, insertion_point := ip } : LineBuffer).insertion_point = ip from rfl,
      graphemeIndicesFrom_eq, hgr, withByteIndices]
    rw [List.get?_cons_succ, withByteIndices_get?]
    cases rs with
    | nil =>
      have hdg : dropBytes s ip = g := by rw [← hflat]; simp
      simp only [List.get?_nil, Option.map_none]
      show utf8Len s = ip + utf8Len g
      rw [hlen, hdg]
    | cons g2 rs2 => simp

theorem dropBytes_utf8Len (s : List Char) : dropBytes s (utf8Len s) = [] := by
  have := dropBytes_len_append s []
  simpa using this

theorem takeBytes_utf8Len (s : List Char) : takeBytes s (utf8Len s) = s := by
  have := takeBytes_len_append s []
  simpa using this

theorem is_valid_bd {b : LineBuffer} (hv : b.is_valid = true) :
    isCharBoundary b.lines b.insertion_point = true := by
  unfold LineBuffer.is_valid at hv
  exact (Bool.and_eq_true_iff.mp hv).1

theorem clear_range_eq (b : LineBuffer) (s e : Nat) :
    b.clear_range s e =
      { lines := takeBytes b.lines s ++ dropBytes b.lines e,
        insertion_point := b.insertion_point } := by
  unfold LineBuffer.clear_range LineBuffer.replace_range
  simp

theorem delete_left_grapheme_eq (b : LineBuffer) :
    b.delete_left_grapheme =
      if b.grapheme_left_index < b.insertion_point then
        { lines := takeBytes b.lines b.grapheme_left_index ++
            dropBytes b.lines b.insertion_point,
          insertion_point := b.grapheme_left_index }
      else b := by
  unfold LineBuffer.delete_left_grapheme
  simp only [clear_range_eq]

theorem delete_right_grapheme_eq (b : LineBuffer) :
    b.delete_right_grapheme =
      if b.insertion_point < b.grapheme_right_index then
        { lines := takeBytes b.lines b.insertion_point ++
            dropBytes b.lines b.grapheme_right_index,
          insertion_point := b.insertion_point }
      else b := by
  unfold LineBuffer.delete_right_grapheme
  simp only [clear_range_eq, gt_iff_lt]

/-- Claim C1: the spec asserts that `is_valid` holds after every sequence of
sanctioned public operations starting from a validly constructed buffer.  The
code violates this: on the buffer built from the text CR `x` LF, one public
`move_left` (a valid position, between `x` and LF) followed by
`delete_left_grapheme` removes the `x`, which juxtaposes CR and LF into a
single grapheme cluster with the cursor left in its middle, and `is_valid`
then returns false. -/
theorem claim_C1_invariant_violated :
    (bufferWith ['\r', 'x', '\n']).move_left.is_valid = true ∧
    (bufferWith ['\r', 'x', '\n']).move_left.delete_left_grapheme =
      { lines := ['\r', '\n'], insertion_point := 1 } ∧
    ((bufferWith ['\r', 'x', '\n']).move_left.delete_left_grapheme).is_valid = false := by
  decide

/-- Claim C7 (amended): from a valid buffer, inserting one multi-byte
grapheme cluster with `insert_str` and immediately calling
`delete_left_grapheme` restores the buffer exactly — content and cursor —
provided the inserted cluster does not merge with the adjacent content.  The
hypothesis `graphemes g = [g]` states that `g` is a single cluster; in this
segmentation clusters merge only at CR LF, and the proof covers those cases,
so the theorem is exactly the no-merge reading.  The unrestricted original
claim is false of the program: see `claim_C7_counterexample`, where a
cluster merging leftward under the crate's rule GB9 is deleted together
with the text it merged into. -/
theorem claim_C7_insert_delete_roundtrip (b : LineBuffer) (g : List Char)
    (hv : b.is_valid = true) (hg : graphemes g = [g]) (hlen : 2 ≤ utf8Len g) :
    (b.insert_str g).delete_left_grapheme = b := by
  have hbd := is_valid_bd hv
  have hmem : g ∈ graphemes g := by
    rw [hg]
    exact List.mem_singleton.mpr rfl
  have hhead : g.head? ≠ some '\n' := by
    rcases mem_graphemes_shape hmem with ⟨c, hc⟩ | hc
    · subst hc
      intro h
      simp at h
      rw [h] at hlen
      revert hlen
      decide
    · rw [hc]
      intro h
      simp at h
  set P := takeBytes b.lines b.insertion_point with hP
  set S := dropBytes b.lines b.insertion_point with hS
  have hPlen : utf8Len P = b.insertion_point := utf8Len_takeBytes_of_bd hbd
  have hPS : P ++ S = b.lines := takeBytes_append_dropBytes _ _
  have hsplit : graphemes (P ++ g) = graphemes P ++ [g] := by
    rw [graphemes_append (fun h => hhead h.2), hg]
  have hPg : utf8Len (P ++ g) = b.insertion_point + utf8Len g := by
    rw [utf8Len_append, hPlen]
  have hins : b.insert_str g =
      { lines := P ++ g ++ S, insertion_point := b.insertion_point + utf8Len g } := rfl
  have hgl : LineBuffer.grapheme_left_index
      ⟨P ++ g ++ S, b.insertion_point + utf8Len g⟩ = b.insertion_point := by
    unfold LineBuffer.grapheme_left_index
    rw [show ({ lines := P ++ g ++ S, insertion_point := b.insertion_point + utf8Len g } :
        LineBuffer).lines = P ++ g ++ S from rfl,
      show ({ lines := P ++ g ++ S, insertion_point := b.insertion_point + utf8Len g } :
        LineBuffer).insertion_point = b.insertion_point + utf8Len g from rfl,
      ← hPg, takeBytes_len_append, graphemeIndicesFrom_eq, hsplit,
      withByteIndices_append_last]
    simp [graphemes_flatten, hPlen]
  rw [hins, delete_left_grapheme_eq, hgl]
  have hlt : b.insertion_point <
      ({ lines := P ++ g ++ S, insertion_point := b.insertion_point + utf8Len g } :
        LineBuffer).insertion_point := by
    show b.insertion_point < b.insertion_point + utf8Len g
    have : g ≠ [] := by
      intro h
      rw [h] at hlen
      simp at hlen
    have := utf8Len_pos this
    omega
  rw [if_pos hlt]
  have htk2 : takeBytes (P ++ g ++ S) b.insertion_point = P := by
    rw [List.append_assoc, ← hPlen, takeBytes_len_append]
  have hdr : dropBytes (P ++ g ++ S) (b.insertion_point + utf8Len g) = S := by
    rw [← hPg, dropBytes_len_append]
  show LineBuffer.mk (takeBytes (P ++ g ++ S) b.insertion_point ++
      dropBytes (P ++ g ++ S) (b.insertion_point + utf8Len g)) b.insertion_point = b
  rw [htk2, hdr, hPS]

/-- Claim C9: `delete_left_grapheme` at offset 0 and `delete_right_grapheme`
at the buffer end leave content and cursor unchanged; otherwise each removes
exactly the one grapheme cluster adjacent to the cursor, the left variant
moving the cursor to the deletion start and the right variant leaving the
cursor in place. -/
theorem claim_C9_delete_edges (b : LineBuffer) :
    (b.insertion_point = 0 → b.delete_left_grapheme = b) ∧
    (b.insertion_point = utf8Len b.lines → b.delete_right_grapheme = b) ∧
    (b.is_valid = true → 0 < b.insertion_point →
      ∃ pre g suf, b.lines = pre ++ g ++ suf ∧
        utf8Len pre + utf8Len g = b.insertion_point ∧
        (graphemes (takeBytes b.lines b.insertion_point)).getLast? = some g ∧
        b.delete_left_grapheme = { lines := pre ++ suf, insertion_point := utf8Len pre }) ∧
    (b.is_valid = true → b.insertion_point < utf8Len b.lines →
      ∃ g suf, b.lines = takeBytes b.lines b.insertion_point ++ g ++ suf ∧
        (graphemes (dropBytes b.lines b.insertion_point)).head? = some g ∧
        b.delete_right_grapheme =
          { lines := takeBytes b.lines b.insertion_point ++ suf,
            insertion_point := b.insertion_point }) := by
  refine ⟨?_, ?_, ?_, ?_⟩
  · intro h
    rw [delete_left_grapheme_eq, if_neg (by omega)]
  · intro h
    have hgr : b.grapheme_right_index = b.insertion_point := by
      unfold LineBuffer.grapheme_right_index
      rw [h, dropBytes_utf8Len]
      simp [graphemeIndicesFrom, h]
    rw [delete_right_grapheme_eq, hgr, if_neg (by omega)]
  · intro hv hpos
    have hbd := is_valid_bd hv
    obtain ⟨pre, g, htake, hshape, hlen, hgl, hlast⟩ := grapheme_left_decomp hbd hpos
    have hgne : g ≠ [] := by
      rcases hshape with ⟨c, hc⟩ | hc <;> simp [hc]
    have hglb : b.grapheme_left_index = utf8Len pre := hgl
    refine ⟨pre, g, dropBytes b.lines b.insertion_point, ?_, hlen, hlast, ?_⟩
    · conv_lhs => rw [← takeBytes_append_dropBytes b.lines b.insertion_point]
      rw [htake, List.append_assoc]
    · rw [delete_left_grapheme_eq, hglb,
        if_pos (by have := utf8Len_pos hgne; omega)]
      have htk : takeBytes b.lines (utf8Len pre) = pre := by
        rw [← takeBytes_takeBytes b.lines (by omega : utf8Len pre ≤ b.insertion_point),
          htake, takeBytes_len_append]
      rw [htk]
  · intro hv hlt
    have hbd := is_valid_bd hv
    obtain ⟨g, rest, hdrop, hshape, hgr, hhd⟩ := grapheme_right_decomp hbd hlt
    have hgne : g ≠ [] := by
      rcases hshape with ⟨c, hc⟩ | hc <;> simp [hc]
    have hgrb : b.grapheme_right_index = b.insertion_point + utf8Len g := hgr
    refine ⟨g, rest, ?_, hhd, ?_⟩
    · conv_lhs => rw [← takeBytes_append_dropBytes b.lines b.insertion_point]
      rw [hdrop, List.append_assoc]
    · rw [delete_right_grapheme_eq, hgrb,
        if_pos (by have := utf8Len_pos hgne; omega)]
      have hdr : dropBytes b.lines (b.insertion_point + utf8Len g) = rest := by
        rw [dropBytes_add _ hbd, hdrop, dropBytes_len_append]
      rw [hdr]

/-- Witness for claim C9 at concrete inputs: the edge no-ops on a two-byte
buffer, and the interior deletions around a four-byte emoji. -/
theorem claim_C9_witness :
    (⟨['a', 'b'], 0⟩ : LineBuffer).delete_left_grapheme = ⟨['a', 'b'], 0⟩ ∧
    (⟨['a', 'b'], 2⟩ : LineBuffer).delete_right_grapheme = ⟨['a', 'b'], 2⟩ ∧
    (∃ pre g suf, (⟨['a', '😊'], 5⟩ : LineBuffer).lines = pre ++ g ++ suf ∧
      utf8Len pre + utf8Len g = 5 ∧
      (graphemes (takeBytes ['a', '😊'] 5)).getLast? = some g ∧
      (⟨['a', '😊'], 5⟩ : LineBuffer).delete_left_grapheme =
        { lines := pre ++ suf, insertion_point := utf8Len pre }) ∧
    (∃ g suf, (⟨['a', '😊'], 1⟩ : LineBuffer).lines = takeBytes ['a', '😊'] 1 ++ g ++ suf ∧
      (graphemes (dropBytes ['a', '😊'] 1)).head? = some g ∧
      (⟨['a', '😊'], 1⟩ : LineBuffer).delete_right_grapheme =
        { lines := takeBytes ['a', '😊'] 1 ++ suf, insertion_point := 1 }) := by
  refine ⟨(claim_C9_delete_edges _).1 rfl, (claim_C9_delete_edges _).2.1 (by decide), ?_, ?_⟩
  · exact (claim_C9_delete_edges _).2.2.1 (by decide) (by decide)
  · exact (claim_C9_delete_edges _).2.2.2 (by decide) (by decide)

/-- Witness for claim C7 at a concrete input: inserting an emoji into a
two-character buffer and deleting leftward restores it. -/
theorem claim_C7_witness :
    ((⟨['a', 'b'], 1⟩ : LineBuffer).insert_str ['😊']).delete_left_grapheme =
      ⟨['a', 'b'], 1⟩ :=
  claim_C7_insert_delete_roundtrip _ _ (by decide) (by decide) (by decide)

/-- Claim C7, counterexample to the original universal statement.  Under the
crate's real segmentation, clusters merge leftward (UAX 29 rule GB9: no
break before `Extend`).  The buffer `"e"` with the cursor at its end is
valid under both segmentations; U+0301 (combining acute) is a multi-byte
(two UTF-8 bytes) single grapheme cluster, and inserting it at the end
keeps the cursor on a cluster boundary (the end of the content), so the
insertion is sanctioned.  But the inserted mark merges with the preceding
`e` into the single cluster `é`, so `delete_left_grapheme` — modelled
faithfully by `uni_delete_left_grapheme` — removes the whole merged cluster
and yields the empty buffer, not the pre-insertion state. -/
theorem claim_C7_counterexample :
    (⟨['e'], 1⟩ : LineBuffer).is_valid = true ∧
    uni_is_valid ⟨['e'], 1⟩ = true ∧
    uniGraphemes ['\u0301'] = [['\u0301']] ∧
    2 ≤ utf8Len ['\u0301'] ∧
    (⟨['e'], 1⟩ : LineBuffer).insert_str ['\u0301'] = ⟨['e', '\u0301'], 3⟩ ∧
    uni_is_valid ⟨['e', '\u0301'], 3⟩ = true ∧
    uniGraphemes ['e', '\u0301'] = [['e', '\u0301']] ∧
    uni_delete_left_grapheme ((⟨['e'], 1⟩ : LineBuffer).insert_str ['\u0301']) =
      ⟨[], 0⟩ ∧
    uni_delete_left_grapheme ((⟨['e'], 1⟩ : LineBuffer).insert_str ['\u0301']) ≠
      ⟨['e'], 1⟩ := by
  decide

/-!
Lemmas about occurrence scanning and the find primitives.
-/

theorem occurrencesAux_shift (c : Char) (k : Nat) (s : List Char) :
    ∀ base, occurrencesAux c (base + k) s =
      (occurrencesAux c base s).map (fun p => p + k) := by
  induction s with
  | nil => intro base; rfl
  | cons d ds ih =>
    intro base
    simp only [occurrencesAux]
    by_cases hd : d = c
    · rw [if_pos hd, if_pos hd, List.map_cons,
        show base + k + d.utf8Size = base + d.utf8Size + k by omega, ih (base + d.utf8Size)]
    · rw [if_neg hd, if_neg hd,
        show base + k + d.utf8Size = base + d.utf8Size + k by omega, ih (base + d.utf8Size)]

theorem occurrencesAux_append (c : Char) (u v : List Char) :
    ∀ base, occurrencesAux c base (u ++ v) =
      occurrencesAux c base u ++ occurrencesAux c (base + utf8Len u) v := by
  induction u with
  | nil => intro base; simp [occurrencesAux]
  | cons d ds ih =>
    intro base
    simp only [List.cons_append, occurrencesAux, utf8Len_cons, List.append_eq]
    by_cases hd : d = c
    · rw [if_pos hd, if_pos hd, ih (base + d.utf8Size), List.cons_append,
        show base + d.utf8Size + utf8Len ds = base + (d.utf8Size + utf8Len ds) by omega]
    · rw [if_neg hd, if_neg hd, ih (base + d.utf8Size),
        show base + d.utf8Size + utf8Len ds = base + (d.utf8Size + utf8Len ds) by omega]

theorem occurrencesAux_mem_bounds {c : Char} {p : Nat} {s : List Char} :
    ∀ {base}, p ∈ occurrencesAux c base s → base ≤ p ∧ p < base + utf8Len s := by
  induction s with
  | nil => intro base h; simp [occurrencesAux] at h
  | cons d ds ih =>
    intro base h
    have hpos := Char.utf8Size_pos d
    simp only [occurrencesAux] at h
    by_cases hd : d = c
    · rw [if_pos hd, List.mem_cons] at h
      rcases h with rfl | h
      · have := utf8Len_pos (s := d :: ds) (by simp)
        simp only [utf8Len_cons]
        omega
      · have := ih h
        simp only [utf8Len_cons]
        omega
    · rw [if_neg hd] at h
      have := ih h
      simp only [utf8Len_cons]
      omega

theorem occurrencesAux_decomp {c : Char} {p : Nat} {s : List Char} :
    ∀ {base}, p ∈ occurrencesAux c base s →
      ∃ u v, s = u ++ c :: v ∧ base + utf8Len u = p := by
  induction s with
  | nil => intro base h; simp [occurrencesAux] at h
  | cons d ds ih =>
    intro base h
    simp only [occurrencesAux] at h
    by_cases hd : d = c
    · rw [if_pos hd, List.mem_cons] at h
      rcases h with rfl | h
      · exact ⟨[], ds, by simp [hd], by simp⟩
      · obtain ⟨u, v, rfl, hu⟩ := ih h
        exact ⟨d :: u, v, rfl, by simp only [utf8Len_cons]; omega⟩
    · rw [if_neg hd] at h
      obtain ⟨u, v, rfl, hu⟩ := ih h
      exact ⟨d :: u, v, rfl, by simp only [utf8Len_cons]; omega⟩

theorem occurrences_decomp {c : Char} {p : Nat} {s : List Char}
    (h : p ∈ occurrences c s) : ∃ u v, s = u ++ c :: v ∧ utf8Len u = p := by
  obtain ⟨u, v, hs, hu⟩ := occurrencesAux_decomp h
  exact ⟨u, v, hs, by omega⟩

theorem strFind_eq_head (c : Char) (s : List Char) :
    strFind c s = (occurrences c s).head? := by
  induction s with
  | nil => rfl
  | cons d ds ih =>
    simp only [strFind, occurrences, occurrencesAux]
    by_cases hd : d = c
    · rw [if_pos hd, if_pos hd]
      rfl
    · rw [if_neg hd, if_neg hd, ih, show (0 : Nat) + d.utf8Size = 0 + d.utf8Size from rfl,
        occurrencesAux_shift c d.utf8Size ds 0, List.head?_map]
      rfl

theorem strRFind_eq_getLast (c : Char) (s : List Char) :
    strRFind c s = (occurrences c s).getLast? := by
  induction s with
  | nil => rfl
  | cons d ds ih =>
    have hshift : occurrencesAux c (0 + d.utf8Size) ds =
        (occurrencesAux c 0 ds).map (fun p => p + d.utf8Size) :=
      occurrencesAux_shift c d.utf8Size ds 0
    have hocc2 : occurrences c (d :: ds) =
        (if d = c then [0] else []) ++ (occurrences c ds).map (fun p => p + d.utf8Size) := by
      unfold occurrences
      simp only [occurrencesAux, hshift]
      split <;> simp
    rw [hocc2]
    simp only [strRFind, ih]
    cases hocc : (occurrences c ds).getLast? with
    | none =>
      have hnil : occurrences c ds = [] := by
        cases h2 : occurrences c ds with
        | nil => rfl
        | cons a l =>
          rw [h2] at hocc
          simp at hocc
      by_cases hd : d = c <;> simp [hd, hnil]
    | some y =>
      have hmapne : (occurrences c ds).map (fun p => p + d.utf8Size) ≠ [] := by
        intro h
        simp only [List.map_eq_nil_iff] at h
        rw [h] at hocc
        simp at hocc
      by_cases hd : d = c
      · simp only [if_pos hd, List.singleton_append]
        rw [getLast?_cons_of_ne _ hmapne, List.getLast?_map, hocc]
        rfl
      · simp only [if_neg hd, List.nil_append]
        rw [List.getLast?_map, hocc]
        rfl

theorem strFind_eq_none {c : Char} {s : List Char} :
    strFind c s = none ↔ c ∉ s := by
  induction s with
  | nil => simp [strFind]
  | cons d ds ih =>
    simp only [strFind]
    by_cases hd : d = c
    · rw [if_pos hd]
      simp [hd]
    · rw [if_neg hd]
      simp only [Option.map_eq_none', List.mem_cons, ih]
      constructor
      · intro h hc
        rcases hc with hc | hc
        · exact hd hc.symm
        · exact h hc
      · intro h hc
        exact h (Or.inr hc)

theorem strRFind_eq_none {c : Char} {s : List Char} :
    strRFind c s = none ↔ c ∉ s := by
  rw [strRFind_eq_getLast, List.getLast?_eq_none_iff]
  constructor
  · intro h hc
    have : ∃ p, p ∈ occurrences c s := by
      obtain ⟨u, v, rfl⟩ := List.mem_iff_append.mp hc
      refine ⟨utf8Len u, ?_⟩
      unfold occurrences
      rw [occurrencesAux_append, List.mem_append]
      right
      simp [occurrencesAux]
    obtain ⟨p, hp⟩ := this
    rw [h] at hp
    simp at hp
  · intro h
    cases hocc : occurrences c s with
    | nil => rfl
    | cons x xs =>
      have hx : x ∈ occurrences c s := by rw [hocc]; simp
      obtain ⟨u, v, rfl, -⟩ := occurrences_decomp hx
      exact absurd (by simp : c ∈ u ++ c :: v) h

theorem strFind_decomp {c : Char} {s : List Char} {i : Nat}
    (h : strFind c s = some i) : ∃ u v, s = u ++ c :: v ∧ utf8Len u = i ∧ c ∉ u := by
  induction s generalizing i with
  | nil => simp [strFind] at h
  | cons d ds ih =>
    simp only [strFind] at h
    by_cases hd : d = c
    · rw [if_pos hd] at h
      cases h
      exact ⟨[], ds, by simp [hd], rfl, by simp⟩
    · rw [if_neg hd] at h
      obtain ⟨j, hj, hji⟩ := Option.map_eq_some'.mp h
      subst hji
      obtain ⟨u, v, rfl, hu, hnu⟩ := ih hj
      refine ⟨d :: u, v, rfl, by simp only [utf8Len_cons]; omega, ?_⟩
      simp only [List.mem_cons, not_or]
      exact ⟨fun hc => hd hc.symm, hnu⟩

theorem strRFind_decomp {c : Char} {s : List Char} {r : Nat}
    (h : strRFind c s = some r) : ∃ u v, s = u ++ c :: v ∧ utf8Len u = r ∧ c ∉ v := by
  induction s generalizing r with
  | nil => simp [strRFind] at h
  | cons d ds ih =>
    simp only [strRFind] at h
    cases hds : strRFind c ds with
    | some i =>
      rw [hds] at h
      cases h
      obtain ⟨u, v, rfl, hu, hnv⟩ := ih hds
      exact ⟨d :: u, v, rfl, by simp only [utf8Len_cons]; omega, hnv⟩
    | none =>
      rw [hds] at h
      by_cases hd : d = c
      · rw [if_pos hd] at h
        cases h
        exact ⟨[], ds, by simp [hd], rfl, strRFind_eq_none.mp hds⟩
      · rw [if_neg hd] at h
        cases h

theorem charAt_append_cons (u : List Char) (c : Char) (v : List Char) :
    charAt (u ++ c :: v) (utf8Len u) = some c := by
  induction u with
  | nil => simp [charAt]
  | cons d ds ih =>
    have hpos := Char.utf8Size_pos d
    simp only [List.cons_append, charAt, utf8Len_cons]
    rw [if_neg (by omega), if_pos (by omega : d.utf8Size ≤ d.utf8Size + utf8Len ds),
      show d.utf8Size + utf8Len ds - d.utf8Size = utf8Len ds by omega]
    exact ih

theorem charAt_prefix {u : List Char} {m : Nat} {x : Char} (w : List Char)
    (h : charAt u m = some x) : charAt (u ++ w) m = some x := by
  induction u generalizing m with
  | nil => simp [charAt] at h
  | cons d ds ih =>
    simp only [charAt] at h ⊢
    by_cases h0 : m = 0
    · rw [if_pos h0] at h ⊢
      exact h
    · rw [if_neg h0] at h ⊢
      by_cases hle : d.utf8Size ≤ m
      · rw [if_pos hle] at h ⊢
        exact ih h
      · rw [if_neg hle] at h
        exact absurd h (by simp)

theorem charAt_append_add (u v : List Char) (m : Nat) :
    charAt (u ++ v) (utf8Len u + m) = charAt v m := by
  induction u with
  | nil => simp
  | cons d ds ih =>
    have hpos := Char.utf8Size_pos d
    simp only [List.cons_append, charAt, utf8Len_cons]
    rw [if_neg (by omega),
      if_pos (by omega : d.utf8Size ≤ d.utf8Size + utf8Len ds + m),
      show d.utf8Size + utf8Len ds + m - d.utf8Size = utf8Len ds + m by omega]
    exact ih

theorem charEndingAt_cons (c : Char) (cs : List Char) (n : Nat) :
    charEndingAt (c :: cs) n =
      if n = c.utf8Size then some c
      else if c.utf8Size < n then charEndingAt cs (n - c.utf8Size) else none := rfl

theorem charEndingAt_zero (s : List Char) : charEndingAt s 0 = none := by
  cases s with
  | nil => rfl
  | cons c cs =>
    have := Char.utf8Size_pos c
    simp only [charEndingAt]
    rw [if_neg (by omega), if_neg (by omega)]

theorem charEndingAt_append (rest : List Char) : ∀ {w : List Char}, w ≠ [] →
    charEndingAt (w ++ rest) (utf8Len w) = w.getLast? := by
  intro w
  induction w with
  | nil => intro h; exact absurd rfl h
  | cons x w' ih =>
    intro h
    cases hw : w' with
    | nil =>
      subst hw
      have hpos := Char.utf8Size_pos x
      simp only [List.cons_append, List.nil_append, charEndingAt, utf8Len_cons, utf8Len_nil]
      rw [if_pos (by omega : x.utf8Size + 0 = x.utf8Size)]
      rfl
    | cons y w2 =>
      subst hw
      have hw2 : 0 < utf8Len (y :: w2) := utf8Len_pos (by simp)
      have hpos := Char.utf8Size_pos x
      rw [List.cons_append, charEndingAt_cons, utf8Len_cons,
        if_neg (by simp only [utf8Len_cons] at hw2 ⊢; omega),
        if_pos (by simp only [utf8Len_cons] at hw2 ⊢; omega),
        show x.utf8Size + utf8Len (y :: w2) - x.utf8Size = utf8Len (y :: w2) by omega,
        ih (by simp), getLast?_cons_of_ne x (by simp)]

theorem charEndingAt_of_bd {s : List Char} {n : Nat} (hbd : isCharBoundary s n = true)
    (hpos : 0 < n) : charEndingAt s n = (takeBytes s n).getLast? := by
  obtain ⟨u, v, rfl, rfl⟩ := isCharBoundary_iff.mp hbd
  have hu : u ≠ [] := by
    intro h
    subst h
    simp at hpos
  rw [charEndingAt_append v hu, takeBytes_len_append]

theorem firstNl_split {s : List Char} {ip : Nat} (hbd : isCharBoundary s ip = true) :
    firstNlAtOrAfter s ip = (strFind '\n' (dropBytes s ip)).map (fun i => i + ip) := by
  obtain ⟨u, v, rfl, rfl⟩ := isCharBoundary_iff.mp hbd
  rw [dropBytes_len_append]
  unfold firstNlAtOrAfter occurrences
  rw [occurrencesAux_append, occurrencesAux_shift '\n' (utf8Len u) v 0,
    List.filter_append]
  have h1 : (occurrencesAux '\n' 0 u).filter (fun p => decide (utf8Len u ≤ p)) = [] := by
    rw [List.filter_eq_nil_iff]
    intro p hp
    have := occurrencesAux_mem_bounds hp
    simp only [decide_eq_true_eq]
    omega
  have h2 : ((occurrencesAux '\n' 0 v).map (fun p => p + utf8Len u)).filter
      (fun p => decide (utf8Len u ≤ p)) =
      (occurrencesAux '\n' 0 v).map (fun p => p + utf8Len u) := by
    rw [List.filter_eq_self]
    intro p hp
    obtain ⟨q, hq, rfl⟩ := List.mem_map.mp hp
    simp
  rw [h1, h2, List.nil_append, List.head?_map, strFind_eq_head]
  rfl

/-- Claim C4: `find_current_line_end` returns the byte offset of the first
LF at or after the cursor, except that when the byte directly before that LF
is a CR the offset of the CR is returned; with no LF it returns the content
length.  It never modifies the buffer (in the source it takes `&self`; here
it is a pure function of the state). -/
theorem claim_C4_line_end (b : LineBuffer)
    (hbd : isCharBoundary b.lines b.insertion_point = true) :
    b.find_current_line_end = lineEndSpec b.lines b.insertion_point := by
  unfold LineBuffer.find_current_line_end lineEndSpec
  rw [firstNl_split hbd]
  cases hf : strFind '\n' (dropBytes b.lines b.insertion_point) with
  | none => rfl
  | some i =>
    simp only [Option.map_some']
    by_cases hpos : i + b.insertion_point = 0
    · rw [hpos, charEndingAt_zero]
      simp
    · have hpos' : 0 < i + b.insertion_point := by omega
      obtain ⟨u', v', hdrop, hu', hnu⟩ := strFind_decomp hf
      have hbd2 : isCharBoundary b.lines (b.insertion_point + i) = true := by
        apply isCharBoundary_lift hbd
        rw [hdrop, ← hu']
        exact isCharBoundary_append_left _ (isCharBoundary_utf8Len u')
      have hce : charEndingAt b.lines (i + b.insertion_point) =
          (takeBytes b.lines (i + b.insertion_point)).getLast? := by
        refine charEndingAt_of_bd ?_ hpos'
        rw [show i + b.insertion_point = b.insertion_point + i by omega]
        exact hbd2
      rw [hce]
      cases hx : (takeBytes b.lines (i + b.insertion_point)).getLast? with
      | none => simp
      | some ch =>
        by_cases hch : ch = '\r'
        · simp [hch, hpos']
        · simp [hch, hpos']

/-- Witness for claim C4 at the spec's own example: on the text `line` CR LF
with the cursor at 0 the function agrees with the spec formula and returns
4, the offset of the CR. -/
theorem claim_C4_witness :
    LineBuffer.find_current_line_end ⟨['l', 'i', 'n', 'e', '\r', '\n'], 0⟩ =
      lineEndSpec ['l', 'i', 'n', 'e', '\r', '\n'] 0 ∧
    lineEndSpec ['l', 'i', 'n', 'e', '\r', '\n'] 0 = 4 :=
  ⟨claim_C4_line_end _ (by decide), by decide⟩

theorem mem_takeBytes_sub {x : Char} {s : List Char} {n : Nat}
    (h : x ∈ takeBytes s n) : x ∈ s := by
  induction s generalizing n with
  | nil => simp at h
  | cons c cs ih =>
    simp only [takeBytes] at h
    split at h
    · rcases List.mem_cons.mp h with rfl | h
      · simp
      · exact List.mem_cons_of_mem _ (ih h)
    · simp at h

theorem current_line_range_start_bd (b : LineBuffer) :
    isCharBoundary b.lines (b.current_line_range).1 = true := by
  unfold LineBuffer.current_line_range
  cases hr : strRFind '\n' (takeBytes b.lines b.insertion_point) with
  | none => exact isCharBoundary_zero _
  | some r =>
    obtain ⟨u, v, hw, hu, -⟩ := strRFind_decomp hr
    show isCharBoundary b.lines (r + 1) = true
    have hbdw : isCharBoundary (takeBytes b.lines b.insertion_point) (r + 1) = true := by
      refine isCharBoundary_iff.mpr ⟨u ++ ['\n'], v, by simpa using hw, ?_⟩
      simp [hu, (by decide : Char.utf8Size '\n' = 1)]
    calc isCharBoundary b.lines (r + 1)
        = isCharBoundary (takeBytes b.lines b.insertion_point ++
            dropBytes b.lines b.insertion_point) (r + 1) := by
          rw [takeBytes_append_dropBytes]
      _ = true := isCharBoundary_append_left _ hbdw

/-- Claim C6: whenever `find_char_left` reports a match at byte offset `i`,
that offset carries the search character, and `move_left_before` places the
cursor at `i` plus the UTF-8 byte length of the character (one character
width past the match, not a grapheme step); with no match the buffer is
unchanged. -/
theorem claim_C6_move_left_before (b : LineBuffer) (c : Char) (fl : Bool) :
    (∀ i, b.find_char_left c fl = some i →
      charAt b.lines i = some c ∧
      b.move_left_before c fl = { b with insertion_point := i + c.utf8Size }) ∧
    (b.find_char_left c fl = none → b.move_left_before c fl = b) := by
  constructor
  · intro i h
    constructor
    · unfold LineBuffer.find_char_left at h
      obtain ⟨r, hr, hri⟩ := Option.map_eq_some'.mp h
      set start := if fl then (b.current_line_range).1 else 0 with hstart
      have hsbd : isCharBoundary b.lines start = true := by
        rw [hstart]
        split
        · exact current_line_range_start_bd b
        · exact isCharBoundary_zero _
      obtain ⟨u, v, hw, hu, -⟩ := strRFind_decomp hr
      have h1 : charAt (sliceBytes b.lines start b.insertion_point) r = some c := by
        rw [hw, ← hu]
        exact charAt_append_cons u c v
      have h2 : charAt (dropBytes b.lines start) r = some c := by
        have := charAt_prefix
          (dropBytes (dropBytes b.lines start) (b.insertion_point - start)) h1
        rwa [sliceBytes, takeBytes_append_dropBytes] at this
      obtain ⟨T, D, hTD, hT⟩ := isCharBoundary_iff.mp hsbd
      have hdrop : dropBytes b.lines start = D := by
        rw [hTD, ← hT, dropBytes_len_append]
      rw [← hri, show r + start = start + r by omega, hTD, ← hT, charAt_append_add]
      rw [hdrop] at h2
      exact h2
    · unfold LineBuffer.move_left_before
      rw [h]
  · intro h
    unfold LineBuffer.move_left_before
    rw [h]

/-- Witness for claim C6 at a repo test input: on `abc def ghi` with the
cursor at 6, searching `a` leftward finds offset 0 and `move_left_before`
lands at 1. -/
theorem claim_C6_witness :
    charAt ['a', 'b', 'c', ' ', 'd', 'e', 'f', ' ', 'g', 'h', 'i'] 0 = some 'a' ∧
    LineBuffer.move_left_before
        ⟨['a', 'b', 'c', ' ', 'd', 'e', 'f', ' ', 'g', 'h', 'i'], 6⟩ 'a' true =
      { lines := ['a', 'b', 'c', ' ', 'd', 'e', 'f', ' ', 'g', 'h', 'i'],
        insertion_point := 1 } :=
  (claim_C6_move_left_before
    ⟨['a', 'b', 'c', ' ', 'd', 'e', 'f', ' ', 'g', 'h', 'i'], 6⟩ 'a' true).1 0 (by decide)

/-- Claim C8: when the search character is absent from the respective search
window, both finders report no match and each of the four move operations
and four delete operations leaves content and cursor unchanged. -/
theorem claim_C8_no_match (b : LineBuffer) (c : Char) (fl : Bool)
    (hR : c ∉ sliceBytes b.lines b.grapheme_right_index
      (if fl then (b.current_line_range).2 else utf8Len b.lines))
    (hL : c ∉ sliceBytes b.lines (if fl then (b.current_line_range).1 else 0)
      b.insertion_point) :
    b.find_char_right c fl = none ∧ b.find_char_left c fl = none ∧
    b.move_right_until c fl = b ∧ b.move_right_before c fl = b ∧
    b.move_left_until c fl = b ∧ b.move_left_before c fl = b ∧
    b.delete_right_until_char c fl = b ∧ b.delete_right_before_char c fl = b ∧
    b.delete_left_until_char c fl = b ∧ b.delete_left_before_char c fl = b := by
  have hfr : b.find_char_right c fl = none := by
    unfold LineBuffer.find_char_right
    rw [Option.map_eq_none']
    exact strFind_eq_none.mpr hR
  have hfl : b.find_char_left c fl = none := by
    unfold LineBuffer.find_char_left
    rw [Option.map_eq_none']
    exact strRFind_eq_none.mpr hL
  refine ⟨hfr, hfl, ?_, ?_, ?_, ?_, ?_, ?_, ?_, ?_⟩
  · unfold LineBuffer.move_right_until
    rw [hfr]
  · unfold LineBuffer.move_right_before
    rw [hfr]
  · unfold LineBuffer.move_left_until
    rw [hfl]
  · unfold LineBuffer.move_left_before
    rw [hfl]
  · unfold LineBuffer.delete_right_until_char
    rw [hfr]
  · unfold LineBuffer.delete_right_before_char
    rw [hfr]
  · unfold LineBuffer.delete_left_until_char
    rw [hfl]
  · unfold LineBuffer.delete_left_before_char
    rw [hfl]

/-- Witness for claim C8 at the spec's example: searching `z` on
`abc def ghi` from offset 0 finds nothing and every operation is a no-op. -/
theorem claim_C8_witness :
    LineBuffer.find_char_right
        ⟨['a', 'b', 'c', ' ', 'd', 'e', 'f', ' ', 'g', 'h', 'i'], 0⟩ 'z' true = none ∧
    LineBuffer.move_right_until
        ⟨['a', 'b', 'c', ' ', 'd', 'e', 'f', ' ', 'g', 'h', 'i'], 0⟩ 'z' true =
      ⟨['a', 'b', 'c', ' ', 'd', 'e', 'f', ' ', 'g', 'h', 'i'], 0⟩ := by
  have h := claim_C8_no_match
    ⟨['a', 'b', 'c', ' ', 'd', 'e', 'f', ' ', 'g', 'h', 'i'], 0⟩ 'z' true
    (by decide) (by decide)
  exact ⟨h.1, h.2.2.1⟩

/-- Claim C10: `find_char_right` starts its scan at `grapheme_right_index`,
so a match is never reported at or inside the cursor's own grapheme, and
`move_right_until` targeting a character occurring only there is a no-op. -/
theorem claim_C10_search_skips_cursor (b : LineBuffer) (c : Char) (fl : Bool) :
    (∀ i, b.find_char_right c fl = some i → b.grapheme_right_index ≤ i) ∧
    (c ∉ dropBytes b.lines b.grapheme_right_index → b.move_right_until c fl = b) := by
  constructor
  · intro i h
    unfold LineBuffer.find_char_right at h
    obtain ⟨r, -, hri⟩ := Option.map_eq_some'.mp h
    omega
  · intro h
    have hfr : b.find_char_right c fl = none := by
      unfold LineBuffer.find_char_right
      rw [Option.map_eq_none']
      refine strFind_eq_none.mpr fun hc => h ?_
      exact mem_takeBytes_sub hc
    unfold LineBuffer.move_right_until
    rw [hfr]

/-- Witness for claim C10 at a repo test input: on `abc def ghi` at offset 0
the only `a` sits at the cursor, so `move_right_until` leaves it unchanged. -/
theorem claim_C10_witness :
    LineBuffer.move_right_until
        ⟨['a', 'b', 'c', ' ', 'd', 'e', 'f', ' ', 'g', 'h', 'i'], 0⟩ 'a' true =
      ⟨['a', 'b', 'c', ' ', 'd', 'e', 'f', ' ', 'g', 'h', 'i'], 0⟩ :=
  (claim_C10_search_skips_cursor
    ⟨['a', 'b', 'c', ' ', 'd', 'e', 'f', ' ', 'g', 'h', 'i'], 0⟩ 'a' true).2 (by decide)

/-!
Lemmas about the word-run segmentation model.
-/

theorem mem_of_getLast?_eq {α : Type} {l : List α} {a : α} (h : l.getLast? = some a) :
    a ∈ l := by
  induction l with
  | nil => simp at h
  | cons x xs ih =>
    cases hx : xs with
    | nil =>
      subst hx
      simp at h
      simp [h]
    | cons y ys =>
      subst hx
      rw [List.getLast?_cons_cons] at h
      exact List.mem_cons_of_mem _ (ih h)

theorem wordRuns_flatten (s : List Char) : (wordRuns s).flatten = s := by
  induction s with
  | nil => rfl
  | cons c cs ih =>
    cases h : wordRuns cs with
    | nil =>
      rw [h] at ih
      simp at ih
      simp only [wordRuns, h]
      simp [← ih]
    | cons r rs =>
      rw [h] at ih
      cases r with
      | nil =>
        simp only [wordRuns, h]
        simpa using ih
      | cons d r' =>
        simp only [wordRuns, h]
        split
        · simpa using ih
        · simpa using ih

theorem wordRuns_ne_nil {s : List Char} : ∀ {r : List Char}, r ∈ wordRuns s → r ≠ [] := by
  induction s with
  | nil => intro r h; simp [wordRuns] at h
  | cons c cs ih =>
    intro r h
    cases hw : wordRuns cs with
    | nil =>
      simp only [wordRuns, hw] at h
      simp at h
      simp [h]
    | cons r0 rs =>
      cases r0 with
      | nil =>
        simp only [wordRuns, hw] at h
        rcases List.mem_cons.mp h with h1 | h2
        · simp [h1]
        · exact ih (by rw [hw]; exact h2)
      | cons d r' =>
        simp only [wordRuns, hw] at h
        split at h
        · rcases List.mem_cons.mp h with h1 | h2
          · simp [h1]
          · exact ih (by rw [hw]; exact List.mem_cons_of_mem _ h2)
        · rcases List.mem_cons.mp h with h1 | h2
          · simp [h1]
          · exact ih (by rw [hw]; exact h2)

theorem splitWordBoundIndices_mem {s : List Char} {p : Nat × List Char}
    (h : p ∈ splitWordBoundIndices s) :
    ∃ u v, s = u ++ p.2 ++ v ∧ utf8Len u = p.1 ∧ p.2 ≠ [] := by
  obtain ⟨rs1, rs2, hrs, hp⟩ := withByteIndices_mem h
  have hne : p.2 ≠ [] := wordRuns_ne_nil (by rw [hrs]; simp)
  refine ⟨rs1.flatten, rs2.flatten, ?_, by omega, hne⟩
  conv_lhs => rw [← wordRuns_flatten s, hrs]
  simp

theorem word_right_index_bounds (b : LineBuffer)
    (hbd : isCharBoundary b.lines b.insertion_point = true) :
    b.insertion_point ≤ b.word_right_index ∧
    isCharBoundary b.lines b.word_right_index = true ∧
    b.word_right_index ≤ utf8Len b.lines := by
  unfold LineBuffer.word_right_index
  cases hf : (splitWordBoundIndices (dropBytes b.lines b.insertion_point)).find?
      (fun p => !is_word_boundary p.2) with
  | none =>
    exact ⟨isCharBoundary_le hbd, isCharBoundary_utf8Len _, le_refl _⟩
  | some p =>
    obtain ⟨u, v, hs, hu, hne⟩ := splitWordBoundIndices_mem (List.mem_of_find?_eq_some hf)
    have hbds : isCharBoundary (dropBytes b.lines b.insertion_point)
        (p.1 + utf8Len p.2) = true := by
      refine isCharBoundary_iff.mpr ⟨u ++ p.2, v, by rw [hs], by simp [hu]⟩
    have hlift := isCharBoundary_lift hbd hbds
    have hle := isCharBoundary_le hlift
    refine ⟨?_, ?_, ?_⟩
    · show b.insertion_point ≤ b.insertion_point + p.1 + utf8Len p.2
      omega
    · show isCharBoundary b.lines (b.insertion_point + p.1 + utf8Len p.2) = true
      rw [show b.insertion_point + p.1 + utf8Len p.2 =
        b.insertion_point + (p.1 + utf8Len p.2) by omega]
      exact hlift
    · show b.insertion_point + p.1 + utf8Len p.2 ≤ utf8Len b.lines
      omega

theorem word_left_scan {s : List Char} {n : Nat} (hbd : isCharBoundary s n = true)
    {p : Nat × List Char}
    (h : ((splitWordBoundIndices (takeBytes s n)).filter
        (fun q => !is_word_boundary q.2)).getLast? = some p) :
    p.1 + utf8Len p.2 ≤ n ∧ isCharBoundary s p.1 = true ∧ p.2 ≠ [] := by
  have hmem : p ∈ splitWordBoundIndices (takeBytes s n) :=
    (List.mem_filter.mp (mem_of_getLast?_eq h)).1
  obtain ⟨u, v, hs, hu, hne⟩ := splitWordBoundIndices_mem hmem
  have htn : utf8Len (takeBytes s n) = n := utf8Len_takeBytes_of_bd hbd
  have hlen : utf8Len u + utf8Len p.2 + utf8Len v = n := by
    rw [← htn, hs]
    simp
    omega
  have hb1 : isCharBoundary (takeBytes s n) p.1 = true :=
    isCharBoundary_iff.mpr ⟨u, p.2 ++ v, by rw [hs, List.append_assoc], hu⟩
  have hb1s : isCharBoundary s p.1 = true := by
    conv_lhs => rw [← takeBytes_append_dropBytes s n]
    exact isCharBoundary_append_left _ hb1
  exact ⟨by omega, hb1s, hne⟩

theorem current_word_range_snd (b : LineBuffer) :
    (b.current_word_range).2 = b.word_right_index := rfl

theorem current_word_range_fst (b : LineBuffer) :
    (b.current_word_range).1 =
      match ((splitWordBoundIndices (takeBytes b.lines b.word_right_index)).filter
        (fun q => !is_word_boundary q.2)).getLast? with
      | some q => q.1
      | none => 0 := rfl

theorem current_word_range_facts (b : LineBuffer)
    (hbd : isCharBoundary b.lines b.insertion_point = true) :
    (b.current_word_range).2 = b.word_right_index ∧
    (b.current_word_range).1 ≤ (b.current_word_range).2 ∧
    isCharBoundary b.lines (b.current_word_range).1 = true ∧
    isCharBoundary b.lines (b.current_word_range).2 = true ∧
    b.insertion_point ≤ (b.current_word_range).2 ∧
    (b.current_word_range).2 ≤ utf8Len b.lines := by
  obtain ⟨hip, hbdr, hler⟩ := word_right_index_bounds b hbd
  have h2 := current_word_range_snd b
  have hleft : (b.current_word_range).1 ≤ b.word_right_index ∧
      isCharBoundary b.lines (b.current_word_range).1 = true := by
    cases hlast : ((splitWordBoundIndices (takeBytes b.lines b.word_right_index)).filter
        (fun q => !is_word_boundary q.2)).getLast? with
    | none =>
      rw [current_word_range_fst, hlast]
      exact ⟨Nat.zero_le _, isCharBoundary_zero _⟩
    | some p =>
      obtain ⟨hple, hpbd, hpne⟩ := word_left_scan hbdr hlast
      rw [current_word_range_fst, hlast]
      exact ⟨le_trans (Nat.le_add_right p.1 (utf8Len p.2)) hple, hpbd⟩
  refine ⟨h2, by rw [h2]; exact hleft.1, hleft.2, by rw [h2]; exact hbdr,
    by rw [h2]; exact hip, by rw [h2]; exact hler⟩

theorem takeBytes_split {s : List Char} {a b : Nat} (hab : a ≤ b)
    (ha : isCharBoundary s a = true) :
    takeBytes s b = takeBytes s a ++ sliceBytes s a b := by
  conv_lhs => rw [show b = a + (b - a) by omega]
  rw [takeBytes_add _ ha]
  rfl

theorem utf8Len_sliceBytes {s : List Char} {a b : Nat} (hab : a ≤ b)
    (ha : isCharBoundary s a = true) (hb : isCharBoundary s b = true) :
    utf8Len (sliceBytes s a b) = b - a := by
  have h1 : utf8Len (takeBytes s b) = b := utf8Len_takeBytes_of_bd hb
  rw [takeBytes_split hab ha, utf8Len_append, utf8Len_takeBytes_of_bd ha] at h1
  omega

/-- Counterexample for claim C2.  On `This is a test` at cursor 8 the two
word ranges differ (8..9 and 10..14), the words are exchanged, but the
cursor lands at 8, the start of the first range, not at 10, the start of the
second range as the claim states.  At cursor 11 the two ranges coincide, yet
the cursor still moves from 11 to 14, against the claim's no-op wording.
And on `ab  ` at cursor 1 the ranges differ (0..2 and 0..4, nested) although
no distinct next word exists, and no text is exchanged. -/
theorem claim_C2_counterexample :
    LineBuffer.current_word_range
        ⟨['T', 'h', 'i', 's', ' ', 'i', 's', ' ', 'a', ' ', 't', 'e', 's', 't'], 8⟩ =
      (8, 9) ∧
    LineBuffer.current_word_range
        (LineBuffer.move_word_right
          ⟨['T', 'h', 'i', 's', ' ', 'i', 's', ' ', 'a', ' ', 't', 'e', 's', 't'], 8⟩) =
      (10, 14) ∧
    LineBuffer.swap_words
        ⟨['T', 'h', 'i', 's', ' ', 'i', 's', ' ', 'a', ' ', 't', 'e', 's', 't'], 8⟩ =
      ⟨['T', 'h', 'i', 's', ' ', 'i', 's', ' ', 't', 'e', 's', 't', ' ', 'a'], 8⟩ ∧
    (LineBuffer.swap_words
        ⟨['T', 'h', 'i', 's', ' ', 'i', 's', ' ', 'a', ' ', 't', 'e', 's', 't'],
          8⟩).insertion_point ≠ 10 ∧
    LineBuffer.current_word_range
        ⟨['T', 'h', 'i', 's', ' ', 'i', 's', ' ', 'a', ' ', 't', 'e', 's', 't'], 11⟩ =
      (10, 14) ∧
    LineBuffer.current_word_range
        (LineBuffer.move_word_right
          ⟨['T', 'h', 'i', 's', ' ', 'i', 's', ' ', 'a', ' ', 't', 'e', 's', 't'], 11⟩) =
      (10, 14) ∧
    LineBuffer.swap_words
        ⟨['T', 'h', 'i', 's', ' ', 'i', 's', ' ', 'a', ' ', 't', 'e', 's', 't'], 11⟩ =
      ⟨['T', 'h', 'i', 's', ' ', 'i', 's', ' ', 'a', ' ', 't', 'e', 's', 't'], 14⟩ ∧
    LineBuffer.current_word_range ⟨['a', 'b', ' ', ' '], 1⟩ = (0, 2) ∧
    LineBuffer.current_word_range
        (LineBuffer.move_word_right ⟨['a', 'b', ' ', ' '], 1⟩) = (0, 4) ∧
    LineBuffer.swap_words ⟨['a', 'b', ' ', ' '], 1⟩ = ⟨['a', 'b', ' ', ' '], 0⟩ := by
  decide

theorem takeBytes_len_append2 {u : List Char} {n : Nat} (v : List Char)
    (h : utf8Len u = n) : takeBytes (u ++ v) n = u := by
  rw [← h, takeBytes_len_append]

theorem dropBytes_len_append2 {u : List Char} {n : Nat} (v : List Char)
    (h : utf8Len u = n) : dropBytes (u ++ v) n = v := by
  rw [← h, dropBytes_len_append]

theorem replace_twice (s : List Char) {L1 R1 L2 R2 : Nat}
    (hbdL1 : isCharBoundary s L1 = true) (hbdR1 : isCharBoundary s R1 = true)
    (hbdL2 : isCharBoundary s L2 = true) (hbdR2 : isCharBoundary s R2 = true)
    (hle1 : L1 ≤ R1) (hsep : R1 ≤ L2) (hle2 : L2 ≤ R2) :
    takeBytes (takeBytes s L2 ++ sliceBytes s L1 R1 ++ dropBytes s R2) L1 ++
        sliceBytes s L2 R2 ++
        dropBytes (takeBytes s L2 ++ sliceBytes s L1 R1 ++ dropBytes s R2) R1 =
      takeBytes s L1 ++ sliceBytes s L2 R2 ++ sliceBytes s R1 L2 ++
        sliceBytes s L1 R1 ++ dropBytes s R2 := by
  have hpre : utf8Len (takeBytes s L1) = L1 := utf8Len_takeBytes_of_bd hbdL1
  have hw1 : utf8Len (sliceBytes s L1 R1) = R1 - L1 := utf8Len_sliceBytes hle1 hbdL1 hbdR1
  have htakeL2 : takeBytes s L2 =
      takeBytes s L1 ++ sliceBytes s L1 R1 ++ sliceBytes s R1 L2 := by
    rw [takeBytes_split hsep hbdR1, takeBytes_split hle1 hbdL1]
  have hX : takeBytes s L2 ++ sliceBytes s L1 R1 ++ dropBytes s R2 =
      takeBytes s L1 ++ (sliceBytes s L1 R1 ++ sliceBytes s R1 L2 ++
        sliceBytes s L1 R1 ++ dropBytes s R2) := by
    rw [htakeL2]
    simp [List.append_assoc]
  have htX : takeBytes (takeBytes s L2 ++ sliceBytes s L1 R1 ++ dropBytes s R2) L1 =
      takeBytes s L1 := by
    rw [hX, takeBytes_len_append2 _ hpre]
  have hX2 : takeBytes s L2 ++ sliceBytes s L1 R1 ++ dropBytes s R2 =
      (takeBytes s L1 ++ sliceBytes s L1 R1) ++ (sliceBytes s R1 L2 ++
        sliceBytes s L1 R1 ++ dropBytes s R2) := by
    rw [hX]
    simp [List.append_assoc]
  have hdX : dropBytes (takeBytes s L2 ++ sliceBytes s L1 R1 ++ dropBytes s R2) R1 =
      sliceBytes s R1 L2 ++ sliceBytes s L1 R1 ++ dropBytes s R2 := by
    rw [hX2, dropBytes_len_append2 _
      (by rw [utf8Len_append, hpre, hw1]; omega :
        utf8Len (takeBytes s L1 ++ sliceBytes s L1 R1) = R1)]
  rw [htX, hdX]
  simp [List.append_assoc]

/-- Claim C2, amended as the counterexample forces: `swap_words` computes the
current word's range, moves one word right and computes the range again.
When the two ranges coincide the content is unchanged but the cursor has
moved to the end of the current word (`word_right_index`), not stayed put.
When the ranges differ and the second range starts at or after the end of
the first (a distinct word to the right exists), the texts of the two word
ranges are exchanged and the cursor lands at the start of the *first* range,
not the second. -/
theorem claim_C2_amended (b : LineBuffer) (hv : b.is_valid = true) :
    (b.current_word_range = (b.move_word_right).current_word_range →
      b.swap_words = { lines := b.lines, insertion_point := b.word_right_index }) ∧
    (b.current_word_range ≠ (b.move_word_right).current_word_range →
      (b.current_word_range).2 ≤ ((b.move_word_right).current_word_range).1 →
      b.lines =
        takeBytes b.lines (b.current_word_range).1 ++
          sliceBytes b.lines (b.current_word_range).1 (b.current_word_range).2 ++
          sliceBytes b.lines (b.current_word_range).2
            ((b.move_word_right).current_word_range).1 ++
          sliceBytes b.lines ((b.move_word_right).current_word_range).1
            ((b.move_word_right).current_word_range).2 ++
          dropBytes b.lines ((b.move_word_right).current_word_range).2 ∧
      b.swap_words =
        { lines :=
            takeBytes b.lines (b.current_word_range).1 ++
              sliceBytes b.lines ((b.move_word_right).current_word_range).1
                ((b.move_word_right).current_word_range).2 ++
              sliceBytes b.lines (b.current_word_range).2
                ((b.move_word_right).current_word_range).1 ++
              sliceBytes b.lines (b.current_word_range).1 (b.current_word_range).2 ++
              dropBytes b.lines ((b.move_word_right).current_word_range).2,
          insertion_point := (b.current_word_range).1 }) := by
  have hbd := is_valid_bd hv
  obtain ⟨e2, hle1, hbdL1, hbdR1, hipR1, hR1len⟩ := current_word_range_facts b hbd
  have hbd1 : isCharBoundary (b.move_word_right).lines
      (b.move_word_right).insertion_point = true := by
    show isCharBoundary b.lines b.word_right_index = true
    rw [← e2]
    exact hbdR1
  obtain ⟨e2x, hle2, hbdL2, hbdR2, hipR2, hR2len⟩ :=
    current_word_range_facts (b.move_word_right) hbd1
  constructor
  · intro hEq
    simp only [LineBuffer.swap_words]
    rw [if_neg (by simp [hEq])]
    rfl
  · intro hne hsep
    have hbdL2' : isCharBoundary b.lines
        ((b.move_word_right).current_word_range).1 = true := hbdL2
    have hbdR2' : isCharBoundary b.lines
        ((b.move_word_right).current_word_range).2 = true := hbdR2
    have hpart : b.lines =
        takeBytes b.lines (b.current_word_range).1 ++
          sliceBytes b.lines (b.current_word_range).1 (b.current_word_range).2 ++
          sliceBytes b.lines (b.current_word_range).2
            ((b.move_word_right).current_word_range).1 ++
          sliceBytes b.lines ((b.move_word_right).current_word_range).1
            ((b.move_word_right).current_word_range).2 ++
          dropBytes b.lines ((b.move_word_right).current_word_range).2 := by
      conv_lhs => rw [← takeBytes_append_dropBytes b.lines
        ((b.move_word_right).current_word_range).2]
      rw [takeBytes_split hle2 hbdL2', takeBytes_split hsep hbdR1,
        takeBytes_split hle1 hbdL1]
    refine ⟨hpart, ?_⟩
    have hwl : LineBuffer.word_left_index (b.move_word_right) =
        (b.current_word_range).1 := rfl
    have hb2 : LineBuffer.move_word_left (LineBuffer.move_word_right b) =
        ⟨b.lines, (b.current_word_range).1⟩ := by
      rw [show LineBuffer.move_word_left (LineBuffer.move_word_right b) =
        ⟨b.lines, LineBuffer.word_left_index (b.move_word_right)⟩ from rfl, hwl]
    simp only [LineBuffer.swap_words]
    rw [if_pos hne, hb2]
    simp only [LineBuffer.replace_range]
    rw [LineBuffer.mk.injEq]
    refine ⟨?_, rfl⟩
    exact replace_twice b.lines hbdL1 hbdR1 hbdL2' hbdR2' hle1 hsep hle2

/-- Witness for the amended claim C2: on `This is a test` at cursor 8 the
word ranges are 8..9 and 10..14, and `swap_words` yields the exchanged
content with the cursor at 8, the start of the first range. -/
theorem claim_C2_witness :
    LineBuffer.swap_words
        ⟨['T', 'h', 'i', 's', ' ', 'i', 's', ' ', 'a', ' ', 't', 'e', 's', 't'], 8⟩ =
      { lines :=
          takeBytes ['T', 'h', 'i', 's', ' ', 'i', 's', ' ', 'a', ' ', 't', 'e', 's', 't']
            8 ++
          sliceBytes ['T', 'h', 'i', 's', ' ', 'i', 's', ' ', 'a', ' ', 't', 'e', 's', 't']
            10 14 ++
          sliceBytes ['T', 'h', 'i', 's', ' ', 'i', 's', ' ', 'a', ' ', 't', 'e', 's', 't']
            9 10 ++
          sliceBytes ['T', 'h', 'i', 's', ' ', 'i', 's', ' ', 'a', ' ', 't', 'e', 's', 't']
            8 9 ++
          dropBytes ['T', 'h', 'i', 's', ' ', 'i', 's', ' ', 'a', ' ', 't', 'e', 's', 't']
            14,
        insertion_point := 8 } :=
  ((claim_C2_amended
    ⟨['T', 'h', 'i', 's', ' ', 'i', 's', ' ', 'a', ' ', 't', 'e', 's', 't'], 8⟩
    (by decide)).2 (by decide) (by decide)).2

/-!
Characterization of swap_graphemes.
-/

theorem swap_graphemes_eq_core (b : LineBuffer) :
    b.swap_graphemes = swapCore ⟨b.lines, swapAdjustedOffset b⟩ := by
  unfold LineBuffer.swap_graphemes swapCore swapAdjustedOffset
  by_cases h0 : b.insertion_point = 0
  · simp only [if_pos h0]
    rfl
  · by_cases hl : b.insertion_point = utf8Len b.lines
    · simp only [if_neg h0, if_pos hl]
      rfl
    · simp only [if_neg h0, if_neg hl]

theorem grapheme_left_index_zero (s : List Char) :
    LineBuffer.grapheme_left_index ⟨s, 0⟩ = 0 := by
  unfold LineBuffer.grapheme_left_index
  rw [show takeBytes ({ lines := s, insertion_point := 0 } : LineBuffer).lines
    ({ lines := s, insertion_point := 0 } : LineBuffer).insertion_point =
    takeBytes s 0 from rfl, takeBytes_zero]
  rfl

theorem grapheme_right_index_end (s : List Char) :
    LineBuffer.grapheme_right_index ⟨s, utf8Len s⟩ = utf8Len s := by
  unfold LineBuffer.grapheme_right_index
  rw [show dropBytes ({ lines := s, insertion_point := utf8Len s } : LineBuffer).lines
    ({ lines := s, insertion_point := utf8Len s } : LineBuffer).insertion_point =
    dropBytes s (utf8Len s) from rfl, dropBytes_utf8Len]
  rfl

theorem swapCore_pair {s : List Char} {A : Nat} (hbd : isCharBoundary s A = true)
    (h0 : 0 < A) (hA : A < utf8Len s) :
    ∃ pre gL gR suf, s = pre ++ gL ++ gR ++ suf ∧
      (graphemes (takeBytes s A)).getLast? = some gL ∧
      (graphemes (dropBytes s A)).head? = some gR ∧
      utf8Len pre + utf8Len gL = A ∧
      swapCore ⟨s, A⟩ = ⟨pre ++ gR ++ gL ++ suf, A + utf8Len gR⟩ := by
  obtain ⟨pre, gL, htake, hshL, hlenL, hgl, hlast⟩ := grapheme_left_decomp hbd h0
  obtain ⟨gR, rest, hdrop, hshR, hgr, hhd⟩ := grapheme_right_decomp hbd hA
  have hgLne : gL ≠ [] := by
    rcases hshL with ⟨c, hc⟩ | hc <;> simp [hc]
  have hgRne : gR ≠ [] := by
    rcases hshR with ⟨c, hc⟩ | hc <;> simp [hc]
  have hs : s = pre ++ gL ++ (gR ++ rest) := by
    conv_lhs => rw [← takeBytes_append_dropBytes s A, htake, hdrop]
  refine ⟨pre, gL, gR, rest, by rw [hs]; simp [List.append_assoc], hlast, hhd, hlenL, ?_⟩
  simp only [swapCore]
  rw [hgl, hgr]
  rw [if_pos (⟨by have := utf8Len_pos hgLne; omega,
    by have := utf8Len_pos hgRne; omega⟩ :
    utf8Len pre < A ∧ A < A + utf8Len gR)]
  simp only [LineBuffer.replace_range]
  rw [LineBuffer.mk.injEq]
  have hslice1 : sliceBytes s (utf8Len pre) A = gL := by
    unfold sliceBytes
    rw [hs, List.append_assoc, dropBytes_len_append,
      show A - utf8Len pre = utf8Len gL by omega, takeBytes_len_append2 _ rfl]
  have hslice2 : sliceBytes s A (A + utf8Len gR) = gR := by
    unfold sliceBytes
    have : dropBytes s A = gR ++ rest := hdrop
    rw [this, show A + utf8Len gR - A = utf8Len gR by omega, takeBytes_len_append2 _ rfl]
  have hdropA2 : dropBytes s (A + utf8Len gR) = rest := by
    rw [dropBytes_add _ hbd, hdrop, dropBytes_len_append]
  constructor
  · show takeBytes (takeBytes s A ++ sliceBytes s (utf8Len pre) A ++
        dropBytes s (A + utf8Len gR)) (utf8Len pre) ++
      sliceBytes s A (A + utf8Len gR) ++
      dropBytes (takeBytes s A ++ sliceBytes s (utf8Len pre) A ++
        dropBytes s (A + utf8Len gR)) A = _
    rw [hslice1, hslice2, hdropA2, htake]
    rw [show pre ++ gL ++ gL ++ rest = pre ++ (gL ++ gL ++ rest) by
      simp [List.append_assoc]]
    rw [takeBytes_len_append2 _ rfl]
    rw [show pre ++ (gL ++ gL ++ rest) = (pre ++ gL) ++ (gL ++ rest) by
      simp [List.append_assoc]]
    rw [dropBytes_len_append2 _ (by rw [utf8Len_append]; omega)]
    simp [List.append_assoc]
  · rfl

/-- Claim C5: `swap_graphemes` first adjusts the cursor (one grapheme right
at offset 0, one grapheme left at the buffer end); then, if a grapheme lies
on each side of the adjusted cursor (equivalently, the buffer has at least
two graphemes), the two adjacent clusters are exchanged and the cursor lands
just past the swapped pair; with at most one grapheme the content is
unchanged and the cursor rests at the adjusted offset. -/
theorem claim_C5_swap_graphemes (b : LineBuffer) (hv : b.is_valid = true) :
    (2 ≤ numGraphemes b.lines →
      ∃ pre gL gR suf,
        b.lines = pre ++ gL ++ gR ++ suf ∧
        (graphemes (takeBytes b.lines (swapAdjustedOffset b))).getLast? = some gL ∧
        (graphemes (dropBytes b.lines (swapAdjustedOffset b))).head? = some gR ∧
        utf8Len pre + utf8Len gL = swapAdjustedOffset b ∧
        b.swap_graphemes =
          ⟨pre ++ gR ++ gL ++ suf, swapAdjustedOffset b + utf8Len gR⟩) ∧
    (numGraphemes b.lines ≤ 1 →
      b.swap_graphemes = ⟨b.lines, swapAdjustedOffset b⟩) := by
  have hbd := is_valid_bd hv
  constructor
  · intro h2
    suffices hA : isCharBoundary b.lines (swapAdjustedOffset b) = true ∧
        0 < swapAdjustedOffset b ∧ swapAdjustedOffset b < utf8Len b.lines by
      obtain ⟨hAbd, hA0, hAlen⟩ := hA
      obtain ⟨pre, gL, gR, suf, e1, e2, e3, e4, e5⟩ := swapCore_pair hAbd hA0 hAlen
      exact ⟨pre, gL, gR, suf, e1, e2, e3, e4, by rw [swap_graphemes_eq_core]; exact e5⟩
    have hlne : b.lines ≠ [] := by
      intro h
      rw [numGraphemes, h] at h2
      simp [graphemes] at h2
    have hlen0 : 0 < utf8Len b.lines := utf8Len_pos hlne
    by_cases hip0 : b.insertion_point = 0
    · have hA : swapAdjustedOffset b = b.grapheme_right_index := by
        unfold swapAdjustedOffset
        rw [if_pos hip0]
      obtain ⟨g, rest, hdrop, hsh, hgr, hhd⟩ :=
        grapheme_right_decomp hbd (by omega : b.insertion_point < utf8Len b.lines)
      have hgne : g ≠ [] := by
        rcases hsh with ⟨c, hc⟩ | hc <;> simp [hc]
      have hgrb : b.grapheme_right_index = b.insertion_point + utf8Len g := hgr
      have hAval : swapAdjustedOffset b = utf8Len g := by
        rw [hA, hgrb, hip0, Nat.zero_add]
      rw [hip0, dropBytes_zero] at hdrop hhd
      obtain ⟨tail, htail⟩ : ∃ tail, graphemes b.lines = g :: tail := by
        cases hgl : graphemes b.lines with
        | nil => rw [hgl] at hhd; simp at hhd
        | cons x xs =>
          rw [hgl] at hhd
          simp at hhd
          exact ⟨xs, by rw [hhd]⟩
      have htne : tail ≠ [] := by
        intro h
        rw [numGraphemes, htail, h] at h2
        simp at h2
      have hrest : rest = tail.flatten := by
        have hfl := graphemes_flatten b.lines
        rw [htail] at hfl
        simp at hfl
        rw [hdrop] at hfl
        exact (List.append_cancel_left hfl.symm)
      have hrne : rest ≠ [] := by
        rw [hrest]
        cases ht : tail with
        | nil => exact absurd ht htne
        | cons t0 ts =>
          have ht0 : t0 ≠ [] :=
            mem_graphemes_ne_nil (s := b.lines) (by rw [htail, ht]; simp)
          simp only [List.flatten_cons]
          intro h
          exact ht0 (List.append_eq_nil.mp h).1
      refine ⟨?_, ?_, ?_⟩
      · rw [hAval, hdrop]
        exact isCharBoundary_append_left rest (isCharBoundary_utf8Len g)
      · rw [hAval]
        exact utf8Len_pos hgne
      · rw [hAval, hdrop, utf8Len_append]
        have := utf8Len_pos hrne
        omega
    · by_cases hipl : b.insertion_point = utf8Len b.lines
      · have hA : swapAdjustedOffset b = b.grapheme_left_index := by
          unfold swapAdjustedOffset
          rw [if_neg hip0, if_pos hipl]
        obtain ⟨pre, gL, htake, hsh, hlen, hgl, hlast⟩ :=
          grapheme_left_decomp hbd (by omega : 0 < b.insertion_point)
        have hgne : gL ≠ [] := by
          rcases hsh with ⟨c, hc⟩ | hc <;> simp [hc]
        have hglb : b.grapheme_left_index = utf8Len pre := hgl
        have hAval : swapAdjustedOffset b = utf8Len pre := by rw [hA, hglb]
        rw [hipl, takeBytes_utf8Len] at htake
        have hpne : pre ≠ [] := by
          intro h
          rw [h, List.nil_append] at htake
          have : graphemes b.lines = [gL] := by
            rw [htake]
            exact graphemes_of_cluster hsh
          rw [numGraphemes, this] at h2
          simp at h2
        refine ⟨?_, ?_, ?_⟩
        · rw [hAval, htake]
          exact isCharBoundary_append_left _ (isCharBoundary_utf8Len pre)
        · rw [hAval]
          exact utf8Len_pos hpne
        · rw [hAval]
          have := utf8Len_pos hgne
          omega
      · have hA : swapAdjustedOffset b = b.insertion_point := by
          unfold swapAdjustedOffset
          rw [if_neg hip0, if_neg hipl]
        have := isCharBoundary_le hbd
        exact ⟨by rw [hA]; exact hbd, by omega, by omega⟩
  · intro h1
    rw [swap_graphemes_eq_core]
    cases hg : graphemes b.lines with
    | nil =>
      have hl : b.lines = [] := graphemes_eq_nil hg
      have hip : b.insertion_point = 0 := by
        have hb := hbd
        rw [hl] at hb
        simpa [isCharBoundary] using hb
      have hA : swapAdjustedOffset b = 0 := by
        unfold swapAdjustedOffset
        rw [if_pos hip]
        unfold LineBuffer.grapheme_right_index
        rw [hl, hip, dropBytes_nil]
        simp [graphemeIndicesFrom, utf8Len]
      rw [hA, hl]
      decide
    | cons g tail =>
      have htne : tail = [] := by
        rw [numGraphemes, hg] at h1
        simp at h1
        exact h1
      subst htne
      have hlg : b.lines = g := by
        have hfl := graphemes_flatten b.lines
        rw [hg] at hfl
        simp at hfl
        exact hfl.symm
      have hgne : g ≠ [] :=
        mem_graphemes_ne_nil (s := b.lines) (by rw [hg]; simp)
      have hlen0 : 0 < utf8Len b.lines := by
        rw [hlg]
        exact utf8Len_pos hgne
      have hip : b.insertion_point = 0 ∨ b.insertion_point = utf8Len b.lines := by
        unfold LineBuffer.is_valid at hv
        obtain ⟨-, hv2⟩ := Bool.and_eq_true_iff.mp hv
        rcases Bool.or_eq_true_iff.mp hv2 with hv2 | hv2
        · rw [List.any_eq_true] at hv2
          obtain ⟨p, hp, hpe⟩ := hv2
          rw [graphemeIndicesFrom_eq, hg] at hp
          simp [withByteIndices] at hp
          rw [hp] at hpe
          simp at hpe
          left
          omega
        · right
          simpa using hv2
      rcases hip with hip | hip
      · have hA : swapAdjustedOffset b = utf8Len b.lines := by
          unfold swapAdjustedOffset
          rw [if_pos hip]
          unfold LineBuffer.grapheme_right_index
          rw [hip, dropBytes_zero, graphemeIndicesFrom_eq, hg]
          simp [withByteIndices]
        rw [hA]
        simp only [swapCore]
        rw [if_neg (by
          rw [grapheme_right_index_end]
          intro hcond
          omega)]
      · have hip0 : ¬ b.insertion_point = 0 := by omega
        have hA : swapAdjustedOffset b = 0 := by
          unfold swapAdjustedOffset
          rw [if_neg hip0, if_pos hip]
          unfold LineBuffer.grapheme_left_index
          rw [hip, takeBytes_utf8Len, graphemeIndicesFrom_eq, hg]
          simp [withByteIndices]
        rw [hA]
        simp only [swapCore]
        rw [if_neg (by
          rw [grapheme_left_index_zero]
          intro hcond
          omega)]

/-- Witness for C5: on `"This is a test"` with the cursor at the end
(offset 14) the buffer is valid, has at least two graphemes, and the claim
applies at this concrete input. -/
theorem claim_C5_witness :
    c5buf.is_valid = true ∧
    ((2 ≤ numGraphemes c5buf.lines →
      ∃ pre gL gR suf,
        c5buf.lines = pre ++ gL ++ gR ++ suf ∧
        (graphemes (takeBytes c5buf.lines (swapAdjustedOffset c5buf))).getLast? = some gL ∧
        (graphemes (dropBytes c5buf.lines (swapAdjustedOffset c5buf))).head? = some gR ∧
        utf8Len pre + utf8Len gL = swapAdjustedOffset c5buf ∧
        c5buf.swap_graphemes =
          ⟨pre ++ gR ++ gL ++ suf, swapAdjustedOffset c5buf + utf8Len gR⟩) ∧
     (numGraphemes c5buf.lines ≤ 1 →
      c5buf.swap_graphemes = ⟨c5buf.lines, swapAdjustedOffset c5buf⟩)) :=
  ⟨by decide, claim_C5_swap_graphemes c5buf (by decide)⟩

/-!
Helper lemmas for the vertical cursor moves (`move_line_up` /
`move_line_down`).
-/

theorem strRFind_append_not_mem {c : Char} {v : List Char} (hv : c ∉ v) :
    ∀ u, strRFind c (u ++ v) = strRFind c u := by
  intro u
  induction u with
  | nil =>
    simp only [List.nil_append]
    exact strRFind_eq_none.mpr hv
  | cons d ds ih =>
    simp only [List.cons_append, strRFind, List.append_eq, ih]

theorem strFind_append_of_not_mem {c : Char} {a : List Char} (ha : c ∉ a) (z : List Char) :
    strFind c (a ++ c :: z) = some (utf8Len a) := by
  induction a with
  | nil =>
    simp [strFind]
  | cons d ds ih =>
    have hd : d ≠ c := by
      intro h
      exact ha (by rw [h]; exact List.mem_cons_self _ _)
    have hds : c ∉ ds := fun h => ha (List.mem_cons_of_mem _ h)
    simp only [List.cons_append, strFind, if_neg hd, List.append_eq, ih hds,
      Option.map_some']
    simp only [utf8Len_cons, Option.some.injEq]
    omega

theorem strRFind_append_of_not_mem {c : Char} {z : List Char} (hz : c ∉ z) :
    ∀ x, strRFind c (x ++ c :: z) = some (utf8Len x) := by
  intro x
  induction x with
  | nil =>
    simp only [List.nil_append, strRFind, strRFind_eq_none.mpr hz, if_pos rfl]
    rfl
  | cons d ds ih =>
    simp only [List.cons_append, strRFind, List.append_eq, ih]
    simp [utf8Len]
    omega

theorem withByteIndices_get?_append_last (rs : List (List Char)) (t : List Char)
    {k : Nat} (hk : k ≤ rs.length) :
    ∃ g, (withByteIndices 0 (rs ++ [t])).get? k = some (walkBytes rs k, g) := by
  rw [withByteIndices_get?]
  rcases Nat.lt_or_ge k rs.length with hlt | hge
  · refine ⟨rs.get ⟨k, hlt⟩, ?_⟩
    rw [List.get?_append hlt, List.get?_eq_get hlt, Option.map_some']
    rw [List.take_append_of_le_length (Nat.le_of_lt hlt)]
    rw [walkBytes, Nat.zero_add]
  · have hke : k = rs.length := Nat.le_antisymm hk hge
    refine ⟨t, ?_⟩
    rw [hke, List.get?_concat_length, Option.map_some']
    rw [List.take_append_of_le_length (Nat.le_refl _), List.take_of_length_le (Nat.le_refl _)]
    rw [walkBytes, List.take_of_length_le (Nat.le_refl _), Nat.zero_add]

theorem walkBytes_of_le {rs : List (List Char)} {k : Nat} (h : rs.length ≤ k) :
    walkBytes rs k = utf8Len rs.flatten := by
  rw [walkBytes, List.take_of_length_le h]

theorem current_line_range_eq (b : LineBuffer) :
    b.current_line_range = (lineStartAt b.lines b.insertion_point,
      match strFind '\n' (dropBytes b.lines b.insertion_point) with
      | some i => i + b.insertion_point + 1
      | none => utf8Len b.lines) := rfl

theorem move_line_up_eq (b : LineBuffer) (h : b.is_cursor_at_first_line = false) :
    b.move_line_up = ⟨b.lines,
      match ((graphemeIndicesFrom 0 (sliceBytes b.lines
          (LineBuffer.current_line_range ⟨b.lines,
            LineBuffer.grapheme_left_index ⟨b.lines, (b.current_line_range).1⟩⟩).1
          (LineBuffer.current_line_range ⟨b.lines,
            LineBuffer.grapheme_left_index ⟨b.lines, (b.current_line_range).1⟩⟩).2)).take
          (numGraphemes (sliceBytes b.lines (b.current_line_range).1 b.insertion_point)
            + 1)).getLast? with
      | some p => p.1 + (LineBuffer.current_line_range ⟨b.lines,
          LineBuffer.grapheme_left_index ⟨b.lines, (b.current_line_range).1⟩⟩).1
      | none => (LineBuffer.current_line_range ⟨b.lines,
          LineBuffer.grapheme_left_index ⟨b.lines, (b.current_line_range).1⟩⟩).1⟩ := by
  unfold LineBuffer.move_line_up
  rw [h, if_neg Bool.false_ne_true]
  rfl

theorem move_line_down_eq (b : LineBuffer) (h : b.is_cursor_at_last_line = false) :
    b.move_line_down = ⟨b.lines,
      match (graphemeIndicesFrom 0 (sliceBytes b.lines
          (LineBuffer.current_line_range ⟨b.lines, (b.current_line_range).2⟩).1
          (LineBuffer.current_line_range ⟨b.lines, (b.current_line_range).2⟩).2)).get?
          (numGraphemes (sliceBytes b.lines (b.current_line_range).1 b.insertion_point)) with
      | some p => p.1 + (LineBuffer.current_line_range ⟨b.lines, (b.current_line_range).2⟩).1
      | none => LineBuffer.find_current_line_end ⟨b.lines, (b.current_line_range).2⟩⟩ := by
  unfold LineBuffer.move_line_down
  rw [h, if_neg Bool.false_ne_true]

theorem current_line_range_fst (b : LineBuffer) :
    (b.current_line_range).1 = lineStartAt b.lines b.insertion_point := rfl

theorem current_line_range_fst2 (s : List Char) (ip : Nat) :
    (LineBuffer.current_line_range ⟨s, ip⟩).1 = lineStartAt s ip := rfl

theorem current_line_range_snd2 (s : List Char) (ip : Nat) :
    (LineBuffer.current_line_range ⟨s, ip⟩).2 =
      match strFind '\n' (dropBytes s ip) with
      | some i => i + ip + 1
      | none => utf8Len s := rfl

theorem current_line_range_snd3 (b : LineBuffer) :
    (b.current_line_range).2 =
      match strFind '\n' (dropBytes b.lines b.insertion_point) with
      | some i => i + b.insertion_point + 1
      | none => utf8Len b.lines := rfl

theorem move_line_up_char (b : LineBuffer)
    (hbd : isCharBoundary b.lines b.insertion_point = true)
    (hfl : b.is_cursor_at_first_line = false) :
    b.move_line_up = ⟨b.lines,
      columnTarget b.lines (lineStartAt b.lines (lineStartAt b.lines b.insertion_point - 1))
        (graphemeColumn b.lines b.insertion_point)⟩ := by
  have hmem : '\n' ∈ takeBytes b.lines b.insertion_point := by
    unfold LineBuffer.is_cursor_at_first_line at hfl
    simpa using hfl
  obtain ⟨r, hr⟩ : ∃ r, strRFind '\n' (takeBytes b.lines b.insertion_point) = some r := by
    cases h : strRFind '\n' (takeBytes b.lines b.insertion_point) with
    | none => exact absurd hmem (strRFind_eq_none.mp h)
    | some r => exact ⟨r, rfl⟩
  obtain ⟨u, v, huv, hulen, hnv⟩ := strRFind_decomp hr
  have hw : b.lines = u ++ '\n' :: (v ++ dropBytes b.lines b.insertion_point) := by
    conv_lhs => rw [← takeBytes_append_dropBytes b.lines b.insertion_point]
    rw [huv]
    simp
  generalize hwv : v ++ dropBytes b.lines b.insertion_point = w at hw
  have hn1 : utf8Len ['\n'] = 1 := by decide
  have hstart : lineStartAt b.lines b.insertion_point = r + 1 := by
    unfold lineStartAt
    rw [hr]
  have htaker : takeBytes b.lines r = u := by
    rw [hw]
    exact takeBytes_len_append2 _ hulen
  have htake1 : takeBytes b.lines (r + 1) = u ++ ['\n'] := by
    rw [hw, show u ++ '\n' :: w = (u ++ ['\n']) ++ w by simp]
    exact takeBytes_len_append2 _ (by rw [utf8Len_append]; omega)
  have hdropr : dropBytes b.lines r = '\n' :: w := by
    rw [hw]
    exact dropBytes_len_append2 _ hulen
  obtain ⟨T, v2, hTshape, hsTv, hTlen, hvr, hnlv2, huTv⟩ :
      ∃ T v2, (T = [] ∨ ∃ u2, T = u2 ++ ['\n']) ∧
        b.lines = T ++ v2 ++ '\n' :: w ∧
        utf8Len T = lineStartAt b.lines r ∧
        lineStartAt b.lines r + utf8Len v2 = r ∧
        '\n' ∉ v2 ∧ T ++ v2 = u := by
    cases hru : strRFind '\n' u with
    | none =>
      refine ⟨[], u, Or.inl rfl, by simpa using hw, ?_, ?_, strRFind_eq_none.mp hru, by simp⟩
      · unfold lineStartAt
        rw [htaker, hru]
        rfl
      · unfold lineStartAt
        rw [htaker, hru]
        simpa using hulen
    | some r2 =>
      obtain ⟨u2, v2, hu2, hr2len, hnl2⟩ := strRFind_decomp hru
      have hls : lineStartAt b.lines r = r2 + 1 := by
        unfold lineStartAt
        rw [htaker, hru]
      refine ⟨u2 ++ ['\n'], v2, Or.inr ⟨u2, rfl⟩, ?_, ?_, ?_, hnl2, ?_⟩
      · rw [hw, hu2]
        simp
      · rw [hls, utf8Len_append, hr2len]
        omega
      · rw [hls]
        have h3 : utf8Len u2 + (Char.utf8Size '\n' + utf8Len v2) = r := by
          rw [← utf8Len_cons, ← utf8Len_append, ← hu2]
          exact hulen
        have h4 : Char.utf8Size '\n' = 1 := by decide
        omega
      · rw [hu2]
        simp
  have hPbd : isCharBoundary b.lines (lineStartAt b.lines r) = true :=
    isCharBoundary_iff.mpr ⟨T, v2 ++ '\n' :: w, by rw [hsTv]; simp, hTlen⟩
  have hdropPn : ∀ n, utf8Len T = n → dropBytes b.lines n = v2 ++ '\n' :: w := by
    intro n hn
    rw [hsTv, show T ++ v2 ++ '\n' :: w = T ++ (v2 ++ '\n' :: w) by simp]
    exact dropBytes_len_append2 _ hn
  have hdropP : dropBytes b.lines (lineStartAt b.lines r) = v2 ++ '\n' :: w :=
    hdropPn _ hTlen
  have hfirstP : firstNlAtOrAfter b.lines (lineStartAt b.lines r) = some r := by
    rw [firstNl_split hPbd, hdropP, strFind_append_of_not_mem hnlv2]
    simp only [Option.map_some', Option.some.injEq]
    omega
  by_cases hcr : u.getLast? = some '\r'
  · -- the previous line ends in CRLF
    obtain ⟨u', hu'⟩ := List.getLast?_eq_some_iff.mp hcr
    have hrlen : utf8Len u' + 1 = r := by
      have h2 : utf8Len ['\r'] = 1 := by decide
      rw [← hulen, hu', utf8Len_append]
      omega
    have hv2ne : v2 ≠ [] := by
      intro h
      rw [h, List.append_nil] at huTv
      rcases hTshape with h0 | ⟨u2, h2⟩
      · rw [h0] at huTv
        rw [← huTv] at hcr
        simp at hcr
      · rw [h2] at huTv
        rw [← huTv] at hcr
        rw [List.getLast?_append_of_ne_nil u2 (by simp)] at hcr
        simp at hcr
    have hv2last : v2.getLast? = some '\r' := by
      rw [← List.getLast?_append_of_ne_nil T hv2ne, huTv]
      exact hcr
    obtain ⟨v2', hv2'⟩ := List.getLast?_eq_some_iff.mp hv2last
    have hv2len : utf8Len v2 = utf8Len v2' + 1 := by
      have h2 : utf8Len ['\r'] = 1 := by decide
      rw [hv2', utf8Len_append]
      omega
    have htake1B : takeBytes b.lines (r + 1) = u' ++ ['\r', '\n'] := by
      rw [htake1, hu']
      simp
    have hb1 : LineBuffer.grapheme_left_index ⟨b.lines, r + 1⟩ = r - 1 := by
      simp only [LineBuffer.grapheme_left_index]
      rw [htake1B, graphemeIndicesFrom_eq,
        graphemes_append (by intro hx; exact absurd hx.2 (by decide)),
        show graphemes ['\r', '\n'] = [['\r', '\n']] by simp [graphemes_crlf],
        withByteIndices_append_last, graphemes_flatten]
      simp
      omega
    have htakerm1 : takeBytes b.lines (r - 1) = u' := by
      rw [hw, hu', show (u' ++ ['\r']) ++ '\n' :: w = u' ++ ('\r' :: '\n' :: w) by simp]
      exact takeBytes_len_append2 _ (by omega)
    have hdroprm1 : dropBytes b.lines (r - 1) = '\r' :: '\n' :: w := by
      rw [hw, hu', show (u' ++ ['\r']) ++ '\n' :: w = u' ++ ('\r' :: '\n' :: w) by simp]
      exact dropBytes_len_append2 _ (by omega)
    have hls_eq : lineStartAt b.lines (r - 1) = lineStartAt b.lines r := by
      unfold lineStartAt
      rw [htaker, htakerm1, hu',
        strRFind_append_not_mem (show ('\n' : Char) ∉ ['\r'] by decide) u']
    have hnr1 : (LineBuffer.current_line_range ⟨b.lines, r - 1⟩).1 =
        lineStartAt b.lines r := by
      rw [current_line_range_fst2, hls_eq]
    have hnr2 : (LineBuffer.current_line_range ⟨b.lines, r - 1⟩).2 = r + 1 := by
      rw [current_line_range_snd2, hdroprm1]
      have hsf : strFind '\n' ('\r' :: '\n' :: w) = some 1 := by
        rw [show '\r' :: '\n' :: w = ['\r'] ++ '\n' :: w from rfl,
          strFind_append_of_not_mem (by decide) w,
          show utf8Len ['\r'] = 1 from by decide]
      rw [hsf]
      show 1 + (r - 1) + 1 = r + 1
      omega
    have hnl : sliceBytes b.lines (lineStartAt b.lines r) (r + 1) = v2' ++ ['\r', '\n'] := by
      unfold sliceBytes
      rw [hdropP, show v2 ++ '\n' :: w = (v2' ++ ['\r', '\n']) ++ w by rw [hv2']; simp]
      refine takeBytes_len_append2 _ ?_
      rw [utf8Len_append]
      have h2 : utf8Len ['\r', '\n'] = 2 := by decide
      omega
    have hgs : graphemes (v2' ++ ['\r', '\n']) = graphemes v2' ++ [['\r', '\n']] := by
      rw [graphemes_append (by intro hx; exact absurd hx.2 (by decide)),
        show graphemes ['\r', '\n'] = [['\r', '\n']] by simp [graphemes_crlf]]
    have hceB : charEndingAt b.lines r = some '\r' := by
      have hune : u ≠ [] := by rw [hu']; simp
      rw [hw, ← hulen, charEndingAt_append _ hune]
      exact hcr
    have hleB : lineEndSpec b.lines (lineStartAt b.lines r) = r - 1 := by
      unfold lineEndSpec
      rw [hfirstP]
      show (if charEndingAt b.lines r = some '\r' then r - 1 else r) = r - 1
      rw [if_pos hceB]
    have hlc : lineContent b.lines (lineStartAt b.lines r) = v2' := by
      unfold lineContent
      rw [hleB]
      unfold sliceBytes
      rw [hdropP, show v2 ++ '\n' :: w = v2' ++ ('\r' :: '\n' :: w) by rw [hv2']; simp]
      exact takeBytes_len_append2 _ (by omega)
    rw [move_line_up_eq b hfl]
    unfold columnTarget graphemeColumn
    rw [current_line_range_fst, hstart, Nat.add_sub_cancel]
    rw [hb1, hnr1, hnr2, hnl]
    rw [graphemeIndicesFrom_eq, hgs, hlc]
    obtain ⟨g, hg⟩ := withByteIndices_take_last 0 (graphemes v2') ['\r', '\n']
      (numGraphemes (sliceBytes b.lines (r + 1) b.insertion_point))
    rw [hg]
    show LineBuffer.mk b.lines
        (0 + walkBytes (graphemes v2')
          (numGraphemes (sliceBytes b.lines (r + 1) b.insertion_point)) +
          lineStartAt b.lines r) = _
    rw [Nat.zero_add, Nat.add_comm]
  · -- the previous line ends in a bare LF
    have hv2r : v2.getLast? ≠ some '\r' := by
      intro hx
      have hv2ne : v2 ≠ [] := by
        intro h
        rw [h] at hx
        simp at hx
      exact hcr (by rw [← huTv, List.getLast?_append_of_ne_nil T hv2ne]; exact hx)
    have hb1 : LineBuffer.grapheme_left_index ⟨b.lines, r + 1⟩ = r := by
      simp only [LineBuffer.grapheme_left_index]
      rw [htake1, graphemeIndicesFrom_eq,
        graphemes_append (fun hx => hcr hx.1), graphemes_single,
        withByteIndices_append_last, graphemes_flatten, hulen]
      simp
    have hnr1 : (LineBuffer.current_line_range ⟨b.lines, r⟩).1 = lineStartAt b.lines r :=
      current_line_range_fst2 b.lines r
    have hnr2 : (LineBuffer.current_line_range ⟨b.lines, r⟩).2 = r + 1 := by
      rw [current_line_range_snd2, hdropr]
      have hsf : strFind '\n' ('\n' :: w) = some 0 := by
        simp [strFind]
      rw [hsf]
      show 0 + r + 1 = r + 1
      omega
    have hnl : sliceBytes b.lines (lineStartAt b.lines r) (r + 1) = v2 ++ ['\n'] := by
      unfold sliceBytes
      rw [hdropP, show v2 ++ '\n' :: w = (v2 ++ ['\n']) ++ w by simp]
      refine takeBytes_len_append2 _ ?_
      rw [utf8Len_append]
      omega
    have hgs : graphemes (v2 ++ ['\n']) = graphemes v2 ++ [['\n']] := by
      rw [graphemes_append (fun hx => hv2r hx.1), graphemes_single]
    have hceA : charEndingAt b.lines r ≠ some '\r' := by
      rcases Nat.eq_zero_or_pos r with hr0 | hrpos
      · rw [hr0, charEndingAt_zero]
        simp
      · have hune : u ≠ [] := by
          intro h
          rw [h] at hulen
          simp at hulen
          omega
        rw [hw, ← hulen, charEndingAt_append _ hune]
        exact hcr
    have hleA : lineEndSpec b.lines (lineStartAt b.lines r) = r := by
      unfold lineEndSpec
      rw [hfirstP]
      show (if charEndingAt b.lines r = some '\r' then r - 1 else r) = r
      rw [if_neg hceA]
    have hlc : lineContent b.lines (lineStartAt b.lines r) = v2 := by
      unfold lineContent
      rw [hleA]
      unfold sliceBytes
      rw [hdropP]
      exact takeBytes_len_append2 _ (by omega)
    rw [move_line_up_eq b hfl]
    unfold columnTarget graphemeColumn
    rw [current_line_range_fst, hstart, Nat.add_sub_cancel]
    rw [hb1, hnr1, hnr2, hnl]
    rw [graphemeIndicesFrom_eq, hgs, hlc]
    obtain ⟨g, hg⟩ := withByteIndices_take_last 0 (graphemes v2) ['\n']
      (numGraphemes (sliceBytes b.lines (r + 1) b.insertion_point))
    rw [hg]
    show LineBuffer.mk b.lines
        (0 + walkBytes (graphemes v2)
          (numGraphemes (sliceBytes b.lines (r + 1) b.insertion_point)) +
          lineStartAt b.lines r) = _
    rw [Nat.zero_add, Nat.add_comm]

theorem find_current_line_end_spec (b : LineBuffer)
    (hbd : isCharBoundary b.lines b.insertion_point = true) :
    b.find_current_line_end = lineEndSpec b.lines b.insertion_point := by
  unfold LineBuffer.find_current_line_end lineEndSpec
  rw [firstNl_split hbd]
  cases hf : strFind '\n' (dropBytes b.lines b.insertion_point) with
  | none => rfl
  | some i =>
    simp only [Option.map_some']
    by_cases hpos : i + b.insertion_point = 0
    · rw [hpos, charEndingAt_zero]
      simp
    · have hpos' : 0 < i + b.insertion_point := by omega
      obtain ⟨u', v', hdrop, hu', hnu⟩ := strFind_decomp hf
      have hbd2 : isCharBoundary b.lines (b.insertion_point + i) = true := by
        apply isCharBoundary_lift hbd
        rw [hdrop, ← hu']
        exact isCharBoundary_append_left _ (isCharBoundary_utf8Len u')
      have hce : charEndingAt b.lines (i + b.insertion_point) =
          (takeBytes b.lines (i + b.insertion_point)).getLast? := by
        refine charEndingAt_of_bd ?_ hpos'
        rw [show i + b.insertion_point = b.insertion_point + i by omega]
        exact hbd2
      rw [hce]
      cases hx : (takeBytes b.lines (i + b.insertion_point)).getLast? with
      | none => simp
      | some ch =>
        by_cases hch : ch = '\r'
        · simp [hch, hpos']
        · simp [hch, hpos']

theorem withByteIndices_get?_lt (rs : List (List Char)) {k : Nat} (hk : k < rs.length) :
    ∃ g, (withByteIndices 0 rs).get? k = some (walkBytes rs k, g) := by
  refine ⟨rs.get ⟨k, hk⟩, ?_⟩
  rw [withByteIndices_get?, List.get?_eq_get hk, Option.map_some', walkBytes, Nat.zero_add]

theorem move_line_down_char (b : LineBuffer)
    (hbd : isCharBoundary b.lines b.insertion_point = true)
    (hll : b.is_cursor_at_last_line = false) :
    ∃ j, firstNlAtOrAfter b.lines b.insertion_point = some j ∧
      b.move_line_down = ⟨b.lines,
        columnTarget b.lines (j + 1) (graphemeColumn b.lines b.insertion_point)⟩ := by
  have hmem : '\n' ∈ dropBytes b.lines b.insertion_point := by
    unfold LineBuffer.is_cursor_at_last_line at hll
    simpa using hll
  obtain ⟨i0, hi0⟩ : ∃ i0, strFind '\n' (dropBytes b.lines b.insertion_point) = some i0 := by
    cases h : strFind '\n' (dropBytes b.lines b.insertion_point) with
    | none => exact absurd hmem (strFind_eq_none.mp h)
    | some i => exact ⟨i, rfl⟩
  obtain ⟨a, z, haz, halen, hna⟩ := strFind_decomp hi0
  have hfirst : firstNlAtOrAfter b.lines b.insertion_point = some (i0 + b.insertion_point) := by
    rw [firstNl_split hbd, hi0]
    rfl
  refine ⟨i0 + b.insertion_point, hfirst, ?_⟩
  obtain ⟨T, hT⟩ : ∃ T, takeBytes b.lines b.insertion_point = T := ⟨_, rfl⟩
  have hTlen : utf8Len T = b.insertion_point := by
    rw [← hT]
    exact utf8Len_takeBytes_of_bd hbd
  have hw : b.lines = (T ++ a) ++ '\n' :: z := by
    conv_lhs => rw [← takeBytes_append_dropBytes b.lines b.insertion_point]
    rw [haz, hT]
    simp
  have hn1 : utf8Len ['\n'] = 1 := by decide
  have hJlen : utf8Len (T ++ a) = i0 + b.insertion_point := by
    rw [utf8Len_append, hTlen, halen]
    omega
  have hoe : (b.current_line_range).2 = i0 + b.insertion_point + 1 := by
    rw [current_line_range_snd3, hi0]
  have htakeJ : takeBytes b.lines (i0 + b.insertion_point + 1) = (T ++ a) ++ ['\n'] := by
    rw [hw, show (T ++ a) ++ '\n' :: z = ((T ++ a) ++ ['\n']) ++ z by simp]
    exact takeBytes_len_append2 _ (by rw [utf8Len_append, hJlen]; omega)
  have hdropJ : dropBytes b.lines (i0 + b.insertion_point + 1) = z := by
    rw [hw, show (T ++ a) ++ '\n' :: z = ((T ++ a) ++ ['\n']) ++ z by simp]
    exact dropBytes_len_append2 _ (by rw [utf8Len_append, hJlen]; omega)
  have hJbd : isCharBoundary b.lines (i0 + b.insertion_point + 1) = true :=
    isCharBoundary_iff.mpr ⟨(T ++ a) ++ ['\n'], z, by rw [hw]; simp,
      by rw [utf8Len_append, hJlen]; omega⟩
  have hnr1 : (LineBuffer.current_line_range ⟨b.lines, i0 + b.insertion_point + 1⟩).1 =
      i0 + b.insertion_point + 1 := by
    rw [current_line_range_fst2]
    unfold lineStartAt
    rw [htakeJ, strRFind_append_of_not_mem (by simp) (T ++ a)]
    show utf8Len (T ++ a) + 1 = i0 + b.insertion_point + 1
    rw [hJlen]
  have hfirstJ : firstNlAtOrAfter b.lines (i0 + b.insertion_point + 1) =
      (strFind '\n' z).map (fun i => i + (i0 + b.insertion_point + 1)) := by
    rw [firstNl_split hJbd, hdropJ]
  have hfcle : LineBuffer.find_current_line_end ⟨b.lines, i0 + b.insertion_point + 1⟩ =
      lineEndSpec b.lines (i0 + b.insertion_point + 1) :=
    find_current_line_end_spec ⟨b.lines, i0 + b.insertion_point + 1⟩ hJbd
  rw [move_line_down_eq b hll]
  unfold columnTarget graphemeColumn
  rw [hoe]
  rw [show numGraphemes (sliceBytes b.lines (b.current_line_range).1 b.insertion_point) =
    numGraphemes (sliceBytes b.lines (lineStartAt b.lines b.insertion_point) b.insertion_point)
    from rfl]
  generalize numGraphemes
      (sliceBytes b.lines (lineStartAt b.lines b.insertion_point) b.insertion_point) = col
  cases hz2 : strFind '\n' z with
  | none =>
    have hzn : '\n' ∉ z := strFind_eq_none.mp hz2
    have hlenz : utf8Len b.lines = i0 + b.insertion_point + 1 + utf8Len z := by
      rw [hw, utf8Len_append, utf8Len_cons, hJlen]
      have : Char.utf8Size '\n' = 1 := by decide
      omega
    have hnr2c : (LineBuffer.current_line_range ⟨b.lines, i0 + b.insertion_point + 1⟩).2 =
        utf8Len b.lines := by
      rw [current_line_range_snd2, hdropJ, hz2]
    have hle : lineEndSpec b.lines (i0 + b.insertion_point + 1) = utf8Len b.lines := by
      unfold lineEndSpec
      rw [hfirstJ, hz2]
      rfl
    have hnl : sliceBytes b.lines (i0 + b.insertion_point + 1) (utf8Len b.lines) = z := by
      unfold sliceBytes
      rw [hdropJ, show utf8Len b.lines - (i0 + b.insertion_point + 1) = utf8Len z by omega,
        takeBytes_utf8Len]
    have hlc : lineContent b.lines (i0 + b.insertion_point + 1) = z := by
      unfold lineContent
      rw [hle]
      exact hnl
    rw [hnr1, hnr2c, hnl, hlc, graphemeIndicesFrom_eq]
    rcases Nat.lt_or_ge col (graphemes z).length with hcl | hcl
    · obtain ⟨g, hg⟩ := withByteIndices_get?_lt (graphemes z) hcl
      rw [hg]
      simp only [LineBuffer.mk.injEq, true_and]
      show walkBytes (graphemes z) col + (i0 + b.insertion_point + 1) =
        i0 + b.insertion_point + 1 + walkBytes (graphemes z) col
      omega
    · have hg : (withByteIndices 0 (graphemes z)).get? col = none := by
        rw [List.get?_eq_none, withByteIndices_length]
        exact hcl
      rw [hg, hfcle, hle]
      simp only [LineBuffer.mk.injEq, true_and]
      show utf8Len b.lines = i0 + b.insertion_point + 1 + walkBytes (graphemes z) col
      rw [walkBytes_of_le hcl, graphemes_flatten]
      omega
  | some i2 =>
    obtain ⟨a2, z2, ha2, ha2len, hna2⟩ := strFind_decomp hz2
    have hwF : b.lines = ((T ++ a) ++ ('\n' :: a2)) ++ '\n' :: z2 := by
      rw [hw, ha2]
      simp
    have hWlen : utf8Len ((T ++ a) ++ ('\n' :: a2)) = i2 + (i0 + b.insertion_point + 1) := by
      rw [utf8Len_append, utf8Len_cons, hJlen, ha2len]
      have : Char.utf8Size '\n' = 1 := by decide
      omega
    have hnr2c : (LineBuffer.current_line_range ⟨b.lines, i0 + b.insertion_point + 1⟩).2 =
        i2 + (i0 + b.insertion_point + 1) + 1 := by
      rw [current_line_range_snd2, hdropJ, hz2]
    have hnl : sliceBytes b.lines (i0 + b.insertion_point + 1)
        (i2 + (i0 + b.insertion_point + 1) + 1) = a2 ++ ['\n'] := by
      unfold sliceBytes
      rw [hdropJ, ha2, show a2 ++ '\n' :: z2 = (a2 ++ ['\n']) ++ z2 by simp]
      refine takeBytes_len_append2 _ ?_
      rw [utf8Len_append, ha2len]
      omega
    have htakeW : takeBytes b.lines (i2 + (i0 + b.insertion_point + 1)) =
        (T ++ a) ++ ('\n' :: a2) := by
      rw [hwF]
      exact takeBytes_len_append2 _ hWlen
    have hce : charEndingAt b.lines (i2 + (i0 + b.insertion_point + 1)) =
        ((T ++ a) ++ ('\n' :: a2)).getLast? := by
      rw [hwF, ← hWlen]
      exact charEndingAt_append _ (by simp)
    have hfirstJF : firstNlAtOrAfter b.lines (i0 + b.insertion_point + 1) =
        some (i2 + (i0 + b.insertion_point + 1)) := by
      rw [hfirstJ, hz2]
      rfl
    by_cases hcr2 : a2.getLast? = some '\r'
    · obtain ⟨a2', ha2'⟩ := List.getLast?_eq_some_iff.mp hcr2
      have ha2len' : utf8Len a2 = utf8Len a2' + 1 := by
        have h2 : utf8Len ['\r'] = 1 := by decide
        rw [ha2', utf8Len_append]
        omega
      have hWlast : ((T ++ a) ++ ('\n' :: a2)).getLast? = some '\r' := by
        rw [List.getLast?_append_of_ne_nil _ (by simp : ('\n' :: a2) ≠ []),
          show ('\n' :: a2) = ['\n'] ++ a2 from rfl,
          List.getLast?_append_of_ne_nil _ (by rw [ha2']; simp)]
        exact hcr2
      have hleF1 : lineEndSpec b.lines (i0 + b.insertion_point + 1) =
          i2 + (i0 + b.insertion_point + 1) - 1 := by
        unfold lineEndSpec
        rw [hfirstJF]
        show (if charEndingAt b.lines (i2 + (i0 + b.insertion_point + 1)) = some '\r' then
          i2 + (i0 + b.insertion_point + 1) - 1 else i2 + (i0 + b.insertion_point + 1)) = _
        rw [if_pos (by rw [hce]; exact hWlast)]
      have hlcF1 : lineContent b.lines (i0 + b.insertion_point + 1) = a2' := by
        unfold lineContent
        rw [hleF1]
        unfold sliceBytes
        rw [hdropJ, ha2, ha2',
          show (a2' ++ ['\r']) ++ '\n' :: z2 = a2' ++ ('\r' :: '\n' :: z2) by simp]
        exact takeBytes_len_append2 _ (by omega)
      have hgsF1 : graphemes (a2 ++ ['\n']) = graphemes a2' ++ [['\r', '\n']] := by
        rw [ha2', show (a2' ++ ['\r']) ++ ['\n'] = a2' ++ ['\r', '\n'] by simp,
          graphemes_append (by intro hx; exact absurd hx.2 (by decide)),
          show graphemes ['\r', '\n'] = [['\r', '\n']] by simp [graphemes_crlf]]
      rw [hnr1, hnr2c, hnl, hlcF1, graphemeIndicesFrom_eq, hgsF1]
      rcases le_or_lt col (graphemes a2').length with hcl | hcl
      · obtain ⟨g, hg⟩ := withByteIndices_get?_append_last (graphemes a2') ['\r', '\n'] hcl
        rw [hg]
        simp only [LineBuffer.mk.injEq, true_and]
        show walkBytes (graphemes a2') col + (i0 + b.insertion_point + 1) =
          i0 + b.insertion_point + 1 + walkBytes (graphemes a2') col
        omega
      · have hg : (withByteIndices 0 (graphemes a2' ++ [['\r', '\n']])).get? col = none := by
          rw [List.get?_eq_none, withByteIndices_length, List.length_append]
          simp
          omega
        rw [hg, hfcle, hleF1]
        simp only [LineBuffer.mk.injEq, true_and]
        show i2 + (i0 + b.insertion_point + 1) - 1 =
          i0 + b.insertion_point + 1 + walkBytes (graphemes a2') col
        rw [walkBytes_of_le (by omega), graphemes_flatten]
        omega
    · have hWlast : ((T ++ a) ++ ('\n' :: a2)).getLast? ≠ some '\r' := by
        rw [List.getLast?_append_of_ne_nil _ (by simp : ('\n' :: a2) ≠ [])]
        cases ha2e : a2 with
        | nil => simp
        | cons x xs =>
          rw [show ('\n' :: x :: xs) = ['\n'] ++ x :: xs from rfl,
            List.getLast?_append_of_ne_nil _ (by simp)]
          rw [ha2e] at hcr2
          exact hcr2
      have hleF2 : lineEndSpec b.lines (i0 + b.insertion_point + 1) =
          i2 + (i0 + b.insertion_point + 1) := by
        unfold lineEndSpec
        rw [hfirstJF]
        show (if charEndingAt b.lines (i2 + (i0 + b.insertion_point + 1)) = some '\r' then
          i2 + (i0 + b.insertion_point + 1) - 1 else i2 + (i0 + b.insertion_point + 1)) = _
        rw [if_neg (by rw [hce]; exact hWlast)]
      have hlcF2 : lineContent b.lines (i0 + b.insertion_point + 1) = a2 := by
        unfold lineContent
        rw [hleF2]
        unfold sliceBytes
        rw [hdropJ, ha2]
        exact takeBytes_len_append2 _ (by omega)
      have hgsF2 : graphemes (a2 ++ ['\n']) = graphemes a2 ++ [['\n']] := by
        rw [graphemes_append (fun hx => hcr2 hx.1), graphemes_single]
      rw [hnr1, hnr2c, hnl, hlcF2, graphemeIndicesFrom_eq, hgsF2]
      rcases le_or_lt col (graphemes a2).length with hcl | hcl
      · obtain ⟨g, hg⟩ := withByteIndices_get?_append_last (graphemes a2) ['\n'] hcl
        rw [hg]
        simp only [LineBuffer.mk.injEq, true_and]
        show walkBytes (graphemes a2) col + (i0 + b.insertion_point + 1) =
          i0 + b.insertion_point + 1 + walkBytes (graphemes a2) col
        omega
      · have hg : (withByteIndices 0 (graphemes a2 ++ [['\n']])).get? col = none := by
          rw [List.get?_eq_none, withByteIndices_length, List.length_append]
          simp
          omega
        rw [hg, hfcle, hleF2]
        simp only [LineBuffer.mk.injEq, true_and]
        show i2 + (i0 + b.insertion_point + 1) =
          i0 + b.insertion_point + 1 + walkBytes (graphemes a2) col
        rw [walkBytes_of_le (by omega), graphemes_flatten]
        omega

/-- Claim C3: when the cursor is not on the first line, `move_line_up` keeps
the content and moves the cursor to the previous line at the same grapheme
column — the count of graphemes between the current line's start and the
cursor — clamped to that line's length; `move_line_down` does the same with
the next line (which starts just past the first LF at or after the cursor);
on the first (resp. last) line the move leaves content and cursor
unchanged. -/
theorem claim_C3_vertical_moves (b : LineBuffer) (hv : b.is_valid = true) :
    (b.is_cursor_at_first_line = true → b.move_line_up = b) ∧
    (b.is_cursor_at_last_line = true → b.move_line_down = b) ∧
    (b.is_cursor_at_first_line = false →
      b.move_line_up = ⟨b.lines,
        columnTarget b.lines
          (lineStartAt b.lines (lineStartAt b.lines b.insertion_point - 1))
          (graphemeColumn b.lines b.insertion_point)⟩) ∧
    (b.is_cursor_at_last_line = false →
      ∃ j, firstNlAtOrAfter b.lines b.insertion_point = some j ∧
        b.move_line_down = ⟨b.lines,
          columnTarget b.lines (j + 1) (graphemeColumn b.lines b.insertion_point)⟩) := by
  have hbd := is_valid_bd hv
  refine ⟨?_, ?_, fun h => move_line_up_char b hbd h, fun h => move_line_down_char b hbd h⟩
  · intro h
    unfold LineBuffer.move_line_up
    rw [h, if_pos rfl]
  · intro h
    unfold LineBuffer.move_line_down
    rw [h, if_pos rfl]

/-- Witness for C3: on the two-line buffer `"abc\ndef"` with the cursor at
byte 5 (inside the second line) the buffer is valid and the claim applies at
this concrete input. -/
theorem claim_C3_witness :
    c3buf.is_valid = true ∧
    ((c3buf.is_cursor_at_first_line = true → c3buf.move_line_up = c3buf) ∧
     (c3buf.is_cursor_at_last_line = true → c3buf.move_line_down = c3buf) ∧
     (c3buf.is_cursor_at_first_line = false →
       c3buf.move_line_up = ⟨c3buf.lines,
         columnTarget c3buf.lines
           (lineStartAt c3buf.lines (lineStartAt c3buf.lines c3buf.insertion_point - 1))
           (graphemeColumn c3buf.lines c3buf.insertion_point)⟩) ∧
     (c3buf.is_cursor_at_last_line = false →
       ∃ j, firstNlAtOrAfter c3buf.lines c3buf.insertion_point = some j ∧
         c3buf.move_line_down = ⟨c3buf.lines,
           columnTarget c3buf.lines (j + 1)
             (graphemeColumn c3buf.lines c3buf.insertion_point)⟩)) :=
  ⟨by decide, claim_C3_vertical_moves c3buf (by decide)⟩
